import Mathlib

/-!
# Verification of the PixelSheet spreadsheet repository against its specification

This file shallowly embeds the parts of the repository that the specification
talks about and proves or refutes each specified property.

Two kinds of definitions appear:

* definitions translated directly from the TypeScript source
  (the JSON-file cell store in `server/json-storage.ts`, the column-letter
  helpers and the cell-update processing in the React client); and
* definitions marked `Modelled from the spec:` for the formula-evaluation
  engine (tokenizer, parser, evaluator, dependency graph, recalculation),
  which the specification describes in detail but whose code is not part of
  the repository snapshot (the snapshot holds only storage, UI, auth and
  websocket plumbing).
-/

namespace Store

/-- A stored cell, translated from the `Cell` records that
`json-storage.ts` creates (`createCell` / sample data).  The optional
`calculatedValue` and `error` fields are the ones the spec's `CellStore`
interface exposes (`getCell -> {value, formula?, dataType, calculatedValue?,
error?}`); the storage code in the snapshot never sets them.  Timestamps and
`formatting` are omitted: no specified property mentions them. -/
structure Cell where
  id : Nat
  sheetId : Nat
  row : Nat
  column : Nat
  value : Option String
  formula : Option String
  dataType : String
  calculatedValue : Option String
  error : Option String
  deriving Repr, DecidableEq

/-- A `Partial<Cell>` update object: a field that is `none` is absent from
the update and keeps the stored cell's value on merge (`{...existing,
...updates}`). -/
structure CellUpdates where
  id : Option Nat := none
  sheetId : Option Nat := none
  row : Option Nat := none
  column : Option Nat := none
  value : Option String := none
  formula : Option String := none
  dataType : Option String := none
  calculatedValue : Option String := none
  error : Option String := none
  deriving Repr, DecidableEq

/-- The `cells` collection of `JsonFileStorage` together with its id
counter (`counters.cells`). -/
structure Storage where
  cells : List Cell
  cellCounter : Nat
  deriving Repr, DecidableEq

/-- `getCell(sheetId, row, column)`: `this.data.cells.find(c => c.sheetId
=== sheetId && c.row === row && c.column === column)`. -/
def getCell (s : Storage) (sheetId row column : Nat) : Option Cell :=
  s.cells.find? fun c => c.sheetId == sheetId && c.row == row && c.column == column

/-- The spread `{...existing, ...updates}` used by `updateCell`. -/
def mergeCell (c : Cell) (u : CellUpdates) : Cell :=
  { id := u.id.getD c.id
    sheetId := u.sheetId.getD c.sheetId
    row := u.row.getD c.row
    column := u.column.getD c.column
    value := match u.value with | some v => some v | none => c.value
    formula := match u.formula with | some f => some f | none => c.formula
    dataType := u.dataType.getD c.dataType
    calculatedValue := match u.calculatedValue with
      | some v => some v | none => c.calculatedValue
    error := match u.error with | some e => some e | none => c.error }

/-- The list surgery done by `updateCell`: find the first cell with the
given id (`findIndex`) and replace it by the merged record; `none` models
the thrown `"Cell not found"`. -/
def updateCellList : List Cell → Nat → CellUpdates → Option (List Cell × Cell)
  | [], _, _ => none
  | c :: tl, cid, u =>
    if c.id = cid then
      some ((mergeCell c u) :: tl, mergeCell c u)
    else
      (updateCellList tl cid u).map fun p => (c :: p.1, p.2)

/-- `updateCell(id, updates)` on the storage. -/
def updateCell (s : Storage) (cid : Nat) (u : CellUpdates) :
    Option (Storage × Cell) :=
  (updateCellList s.cells cid u).map fun p => ({ s with cells := p.1 }, p.2)

/-- `createCell(insertCell)`: appends a fresh cell with
`id = this.counters.cells++`; `dataType: updates.dataType || "text"`
(JavaScript `||`, so the empty string also falls back to `"text"`). -/
def createCell (s : Storage) (sheetId row column : Nat) (u : CellUpdates) :
    Storage × Cell :=
  let cell : Cell :=
    { id := s.cellCounter
      sheetId := sheetId
      row := row
      column := column
      value := u.value
      formula := u.formula
      dataType := match u.dataType with
        | some d => if d = "" then "text" else d
        | none => "text"
      calculatedValue := none
      error := none }
  ({ cells := s.cells ++ [cell], cellCounter := s.cellCounter + 1 }, cell)

/-- `updateCellByPosition(sheetId, row, column, updates)`: update the
existing cell found by `getCell`, otherwise create a new one at the
position. -/
def updateCellByPosition (s : Storage) (sheetId row column : Nat)
    (u : CellUpdates) : Option (Storage × Cell) :=
  match getCell s sheetId row column with
  | some existing => updateCell s existing.id u
  | none => some (createCell s sheetId row column u)

/-- The nine sample cells created by `initializeSampleData` (sheet id 1,
cell ids 1–9): three literal rows and two formula cells `=B1-B2`,
`=C1-C2`.  No `calculatedValue` and no `error` is ever attached. -/
def sampleCells : List Cell :=
  [ { id := 1, sheetId := 1, row := 1, column := 1, value := some "Revenue",
      formula := none, dataType := "text", calculatedValue := none, error := none },
    { id := 2, sheetId := 1, row := 1, column := 2, value := some "50000",
      formula := none, dataType := "number", calculatedValue := none, error := none },
    { id := 3, sheetId := 1, row := 1, column := 3, value := some "55000",
      formula := none, dataType := "number", calculatedValue := none, error := none },
    { id := 4, sheetId := 1, row := 2, column := 1, value := some "Expenses",
      formula := none, dataType := "text", calculatedValue := none, error := none },
    { id := 5, sheetId := 1, row := 2, column := 2, value := some "35000",
      formula := none, dataType := "number", calculatedValue := none, error := none },
    { id := 6, sheetId := 1, row := 2, column := 3, value := some "38000",
      formula := none, dataType := "number", calculatedValue := none, error := none },
    { id := 7, sheetId := 1, row := 3, column := 1, value := some "Profit",
      formula := none, dataType := "text", calculatedValue := none, error := none },
    { id := 8, sheetId := 1, row := 3, column := 2, value := some "=B1-B2",
      formula := some "=B1-B2", dataType := "formula", calculatedValue := none, error := none },
    { id := 9, sheetId := 1, row := 3, column := 3, value := some "=C1-C2",
      formula := some "=C1-C2", dataType := "formula", calculatedValue := none, error := none } ]

/-- The storage state right after sample initialization. -/
def sampleStorage : Storage := { cells := sampleCells, cellCounter := 10 }

/-- At most one stored cell per (sheetId, row, column) position. -/
def atMostOnePerPos (l : List Cell) : Prop :=
  l.Pairwise fun a b => ¬(a.sheetId = b.sheetId ∧ a.row = b.row ∧ a.column = b.column)

instance : DecidablePred atMostOnePerPos := fun l =>
  inferInstanceAs (Decidable (l.Pairwise _))

end Store

namespace Client

/-- `getColumnLetter` from `ResizableGrid.tsx`: repeatedly `col--` and
prepend `String.fromCharCode(65 + (col % 26))`, then `col = floor(col/26)`.
The accumulator mirrors the `result` variable built by prepending. -/
def getColumnLetterLoop : Nat → String → String
  | 0, result => result
  | col + 1, result =>
    getColumnLetterLoop ((col + 1 - 1) / 26)
      (String.singleton (Char.ofNat (65 + (col + 1 - 1) % 26)) ++ result)
decreasing_by
  simp only [Nat.add_sub_cancel]
  exact Nat.lt_succ_of_le (Nat.div_le_self col 26)

/-- `getColumnLetter(col)` from `ResizableGrid.tsx`. -/
def getColumnLetter (col : Nat) : String :=
  getColumnLetterLoop col ""

/-- The other column-rendering path: `String.fromCharCode(64 + column)` as
used in `spreadsheet.tsx` (`handleCellUpdate` toast and elsewhere). -/
def colLetterNaive (column : Nat) : String :=
  String.singleton (Char.ofNat (64 + column))

/-- Modelled from the spec: the general base-26 column encoding
`letter = chr(65 + (n-1) % 26)` with carry (1 ↦ A, 26 ↦ Z, 27 ↦ AA). -/
def specColumnLetters (n : Nat) : String :=
  if n = 0 then ""
  else specColumnLetters ((n - 1) / 26) ++ String.singleton (Char.ofNat (65 + (n - 1) % 26))
decreasing_by
  rename_i h
  have h1 : n - 1 < n := Nat.sub_lt (Nat.pos_of_ne_zero h) Nat.one_pos
  exact Nat.lt_of_le_of_lt (Nat.div_le_self (n - 1) 26) h1

/-- The cell-input processing of `handleCellUpdate` in `spreadsheet.tsx`
(lines 127–138): returns `(processedValue, processedFormula, dataType)`.
`isNumericJS` stands for `!isNaN(Number(value))`. -/
def processCellInput (isNumericJS : String → Bool) (value : String)
    (formula : Option String) : String × Option String × String :=
  if value.startsWith "=" then
    (value, some value, "formula")
  else if isNumericJS value && value != "" then
    (value, formula, "number")
  else
    (value, formula, "text")

/-- The `PUT /cells` request body `handleCellUpdate` sends, viewed as a
storage update object: the processed value and data type are always
present, the formula only when one was produced (a JSON body drops an
`undefined` formula field, so a literal input carries no `formula`
key). -/
def updatesOfInput (isNumericJS : String → Bool) (value : String) :
    Store.CellUpdates :=
  { value := some (processCellInput isNumericJS value none).1
    formula := (processCellInput isNumericJS value none).2.1
    dataType := some (processCellInput isNumericJS value none).2.2 }

theorem getColumnLetterLoop_eq (col : Nat) :
    ∀ acc, getColumnLetterLoop col acc = specColumnLetters col ++ acc := by
  induction col using Nat.strong_induction_on with
  | _ col ih =>
    intro acc
    match col with
    | 0 => simp [getColumnLetterLoop, specColumnLetters]
    | col + 1 =>
      rw [getColumnLetterLoop, ih ((col + 1 - 1) / 26)
        (Nat.lt_succ_of_le (by simpa using Nat.div_le_self col 26))]
      conv_rhs => rw [specColumnLetters]
      simp [String.append_assoc]

theorem specColumnLetters_small {n : Nat} (h1 : 1 ≤ n) (h2 : n ≤ 26) :
    specColumnLetters n = String.singleton (Char.ofNat (64 + n)) := by
  rw [specColumnLetters]
  have hn : ¬ n = 0 := by omega
  have hd : (n - 1) / 26 = 0 := Nat.div_eq_of_lt (by omega)
  have hm : (n - 1) % 26 = n - 1 := Nat.mod_eq_of_lt (by omega)
  rw [if_neg hn, hd, specColumnLetters, if_pos rfl, hm]
  have : 65 + (n - 1) = 64 + n := by omega
  rw [this]
  rfl

end Client

namespace Store

/-- The position key of a stored cell. -/
def posOf (c : Cell) : Nat × Nat × Nat := (c.sheetId, c.row, c.column)

/-- Whether the update object leaves the position fields untouched. -/
def posFree (u : CellUpdates) : Prop :=
  u.sheetId = none ∧ u.row = none ∧ u.column = none

theorem posOf_mergeCell {c : Cell} {u : CellUpdates} (h : posFree u) :
    posOf (mergeCell c u) = posOf c := by
  obtain ⟨h1, h2, h3⟩ := h
  simp [posOf, mergeCell, h1, h2, h3]

theorem atMostOnePerPos_iff (l : List Cell) :
    atMostOnePerPos l ↔ (l.map posOf).Pairwise (· ≠ ·) := by
  rw [List.pairwise_map]
  constructor <;> intro h <;> refine h.imp ?_ <;> intro a b hab
  · intro hEq
    exact hab ⟨congrArg (·.1) hEq, congrArg (·.2.1) hEq, congrArg (·.2.2) hEq⟩
  · intro ⟨e1, e2, e3⟩
    exact hab (by simp [posOf, e1, e2, e3])

theorem updateCellList_map_posOf {l : List Cell} {cid : Nat} {u : CellUpdates}
    (hu : posFree u) :
    ∀ {l' : List Cell} {c' : Cell}, updateCellList l cid u = some (l', c') →
      l'.map posOf = l.map posOf := by
  induction l with
  | nil => intro l' c' h; simp [updateCellList] at h
  | cons c tl ih =>
    intro l' c' h
    by_cases hc : c.id = cid
    · simp [updateCellList, hc] at h
      rw [← h.1]
      simp [posOf_mergeCell hu]
    · simp [updateCellList, hc] at h
      obtain ⟨p, hp, hl'⟩ := h
      rw [← hl']
      simp [ih hp]

/-- At most one stored cell per id. -/
def idsDistinct (l : List Cell) : Prop :=
  l.Pairwise fun a b => a.id ≠ b.id

theorem updateCellList_of_find? {u : CellUpdates}
    {pred : Cell → Bool} (hpred : ∀ c, pred (mergeCell c u) = pred c) :
    ∀ {l : List Cell} {c0 : Cell},
      idsDistinct l →
      l.find? pred = some c0 →
      ∃ l', updateCellList l c0.id u = some (l', mergeCell c0 u) ∧
        l'.find? pred = some (mergeCell c0 u) ∧ l'.length = l.length := by
  intro l
  induction l with
  | nil => intro c0 _ h; simp at h
  | cons c tl ih =>
    intro c0 hdist hfind
    by_cases hp : pred c
    · rw [List.find?_cons_of_pos _ hp] at hfind
      have hc0 : c = c0 := by injection hfind
      subst hc0
      refine ⟨mergeCell c u :: tl, ?_, ?_, ?_⟩
      · simp [updateCellList]
      · exact List.find?_cons_of_pos _ (by rw [hpred]; exact hp)
      · simp
    · rw [List.find?_cons_of_neg _ hp] at hfind
      have hmem : c0 ∈ tl := List.mem_of_find?_eq_some hfind
      have hid : ¬ c.id = c0.id := (List.pairwise_cons.mp hdist).1 c0 hmem
      obtain ⟨l'', h1, h2, h3⟩ := ih (List.pairwise_cons.mp hdist).2 hfind
      refine ⟨c :: l'', ?_, ?_, ?_⟩
      · simp [updateCellList, hid, h1]
      · rw [List.find?_cons_of_neg _ hp, h2]
      · simp [h3]

end Store

namespace Engine

/-- Modelled from the spec: the error taxonomy of §7 (the base kinds). -/
inductive BaseErr where
  | syntaxErr
  | typeMismatch
  | divisionByZero
  | argumentError
  | lookupNotFound
  | unknownFunction
  | circularReference
  deriving Repr, DecidableEq

/-- Modelled from the spec: an evaluation error is a base kind or a
`PropagatedError` wrapping the upstream base kind (§7). -/
inductive EvalError where
  | base (k : BaseErr)
  | propagated (k : BaseErr)
  deriving Repr, DecidableEq

/-- Modelled from the spec: the typed value a formula evaluates to
(§4.5: `Number | String | Boolean`), plus the empty value an unset cell
resolves to (§4.3). -/
inductive Value where
  | num (q : ℚ)
  | str (s : String)
  | boolean (b : Bool)
  | empty
  deriving Repr, DecidableEq

instance exceptDecEq {ε α : Type} [DecidableEq ε] [DecidableEq α] :
    DecidableEq (Except ε α) := fun a b =>
  match a, b with
  | .ok v, .ok w => if h : v = w then .isTrue (by rw [h]) else .isFalse (by simp [h])
  | .error e, .error f => if h : e = f then .isTrue (by rw [h]) else .isFalse (by simp [h])
  | .ok _, .error _ => .isFalse (by simp)
  | .error _, .ok _ => .isFalse (by simp)

/-- Modelled from the spec: token kinds of the tokenizer (§4.1). -/
inductive Token where
  | number (q : ℚ)
  | strTok (s : String)
  | cellRef (col row : Nat)
  | rangeRef (c1 r1 c2 r2 : Nat)
  | ident (name : String)
  | op (s : String)
  | comma
  | lparen
  | rparen
  deriving Repr, DecidableEq

/-- Digit-list accumulator: `acc * 10 + digit` left to right. -/
def natFromDigits (acc : Nat) (ds : List Char) : Nat :=
  ds.foldl (fun a c => a * 10 + (c.toNat - 48)) acc

/-- Modelled from the spec: lexing a `NUMBER` token (decimal digits, an
optional fraction after `.`, an optional exponent `e`/`E` with optional
sign; an exponent must have at least one digit). -/
def lexExponent (q : ℚ) (cs : List Char) : Except BaseErr (ℚ × List Char) :=
  match cs with
  | 'e' :: rest | 'E' :: rest =>
    let (neg, rest2) : Bool × List Char :=
      match rest with
      | '+' :: r2 => (false, r2)
      | '-' :: r2 => (true, r2)
      | _ => (false, rest)
    let es := rest2.takeWhile Char.isDigit
    if es.isEmpty then .error .syntaxErr
    else
      let e := natFromDigits 0 es
      .ok (if neg then q / 10 ^ e else q * 10 ^ e, rest2.dropWhile Char.isDigit)
  | _ => .ok (q, cs)

/-- Modelled from the spec: the integer-and-fraction part of a `NUMBER`. -/
def lexNumber (cs : List Char) : Except BaseErr (ℚ × List Char) :=
  let ds := cs.takeWhile Char.isDigit
  let rest := cs.dropWhile Char.isDigit
  let ip : ℚ := (natFromDigits 0 ds : ℚ)
  match rest with
  | '.' :: rest2 =>
    let fs := rest2.takeWhile Char.isDigit
    lexExponent (ip + (natFromDigits 0 fs : ℚ) / (10 : ℚ) ^ fs.length)
      (rest2.dropWhile Char.isDigit)
  | _ => lexExponent ip rest

/-- Bijective base-26 column value of a letter run (`A` = 1, `AA` = 27);
case-insensitive (§4.1 normalizes to uppercase). -/
def colFromLetters (ls : List Char) : Nat :=
  ls.foldl (fun a c => a * 26 + (c.toUpper.toNat - 64)) 0

/-- A character that may continue an identifier (`[A-Za-z0-9_]`). -/
def isIdentChar (c : Char) : Bool :=
  c.isAlpha || c.isDigit || c = '_'

/-- A run of letters followed by a run of digits and nothing else
(the `CELL_REF` shape `[A-Z]+[0-9]+`). -/
def splitCellRef (span : List Char) : Option (Nat × Nat) :=
  let ls := span.takeWhile Char.isAlpha
  let ds := span.dropWhile Char.isAlpha
  if ls.isEmpty || ds.isEmpty || !(ds.all Char.isDigit) then none
  else some (colFromLetters ls, natFromDigits 0 ds)

/-- Modelled from the spec: lexing a double-quoted `STRING` with `""`
doubling as the only escape; `none` is an unterminated literal. -/
def lexStrAux : List Char → Option (List Char × List Char)
  | [] => none
  | '"' :: '"' :: tl => (lexStrAux tl).map fun p => ('"' :: p.1, p.2)
  | '"' :: tl => some ([], tl)
  | c :: tl => (lexStrAux tl).map fun p => (c :: p.1, p.2)

/-- Modelled from the spec: the tokenizer main loop of §4.1 (fuel-indexed;
one unit of fuel per emitted token, so the input length plus one always
suffices).  Fails with `SyntaxError` on an unrecognized character or an
unterminated string. -/
def tokenizeAux : Nat → List Char → Except BaseErr (List Token)
  | 0, _ => .error .syntaxErr
  | _ + 1, [] => .ok []
  | fuel + 1, c :: cs =>
    if c = ' ' || c = '\t' || c = '\r' || c = '\n' then
      tokenizeAux fuel cs
    else if c.isDigit then do
      let (q, rest) ← lexNumber (c :: cs)
      let ts ← tokenizeAux fuel rest
      .ok (.number q :: ts)
    else if c.isAlpha || c = '_' then
      let span := (c :: cs).takeWhile isIdentChar
      let rest := (c :: cs).dropWhile isIdentChar
      match rest with
      | '(' :: _ =>
        -- IDENT: a name immediately followed by `(` (the `(` is left
        -- in the stream for the parser), normalized to uppercase.
        do
          let ts ← tokenizeAux fuel rest
          .ok (.ident (String.mk (span.map Char.toUpper)) :: ts)
      | _ =>
        match splitCellRef span with
        | some (col, row) =>
          match rest with
          | ':' :: rest2 =>
            let span2 := rest2.takeWhile isIdentChar
            let rest3 := rest2.dropWhile isIdentChar
            match splitCellRef span2 with
            | some (col2, row2) => do
              let ts ← tokenizeAux fuel rest3
              .ok (.rangeRef col row col2 row2 :: ts)
            | none => .error .syntaxErr
          | _ => do
            let ts ← tokenizeAux fuel rest
            .ok (.cellRef col row :: ts)
        | none => .error .syntaxErr
    else if c = '"' then
      match lexStrAux cs with
      | some (content, rest) => do
        let ts ← tokenizeAux fuel rest
        .ok (.strTok (String.mk content) :: ts)
      | none => .error .syntaxErr
    else if c = ',' then do
      let ts ← tokenizeAux fuel cs
      .ok (.comma :: ts)
    else if c = '(' then do
      let ts ← tokenizeAux fuel cs
      .ok (.lparen :: ts)
    else if c = ')' then do
      let ts ← tokenizeAux fuel cs
      .ok (.rparen :: ts)
    else if c = '<' then
      match cs with
      | '>' :: cs2 => do
        let ts ← tokenizeAux fuel cs2
        .ok (.op "<>" :: ts)
      | '=' :: cs2 => do
        let ts ← tokenizeAux fuel cs2
        .ok (.op "<=" :: ts)
      | _ => do
        let ts ← tokenizeAux fuel cs
        .ok (.op "<" :: ts)
    else if c = '>' then
      match cs with
      | '=' :: cs2 => do
        let ts ← tokenizeAux fuel cs2
        .ok (.op ">=" :: ts)
      | _ => do
        let ts ← tokenizeAux fuel cs
        .ok (.op ">" :: ts)
    else if c = '+' || c = '-' || c = '*' || c = '/' || c = '^' || c = '=' || c = '&' then do
      let ts ← tokenizeAux fuel cs
      .ok (.op (String.singleton c) :: ts)
    else .error .syntaxErr

/-- Modelled from the spec: tokenize a formula body (after the leading
`=` was stripped). -/
def tokenize (cs : List Char) : Except BaseErr (List Token) :=
  tokenizeAux (cs.length + 1) cs

end Engine

namespace Engine

mutual
/-- Modelled from the spec: expression nodes (§3). -/
inductive Expr where
  | numLit (q : ℚ)
  | strLit (s : String)
  | cellRef (col row : Nat)
  | rangeRef (c1 r1 c2 r2 : Nat)
  | binOp (op : String) (l r : Expr)
  | unOp (op : String) (e : Expr)
  | funCall (name : String) (args : ExprList)
  deriving Repr, DecidableEq
/-- Argument list of a function call (`args : Node[]`). -/
inductive ExprList where
  | nil
  | cons (hd : Expr) (tl : ExprList)
  deriving Repr, DecidableEq
end

/-- The comparison operators (lowest precedence, §4.2 level 7). -/
def cmpOps : List String := ["=", "<>", "<", "<=", ">", ">="]

mutual

/-- Modelled from the spec: precedence level 7, comparisons
(left-associative). -/
def parseCmp : Nat → List Token → Except BaseErr (Expr × List Token)
  | 0, _ => .error .syntaxErr
  | fuel + 1, toks => do
    let (l, t) ← parseConcat fuel toks
    parseCmpLoop fuel l t

def parseCmpLoop : Nat → Expr → List Token → Except BaseErr (Expr × List Token)
  | 0, acc, toks =>
    match toks with
    | .op s :: _ => if s ∈ cmpOps then .error .syntaxErr else .ok (acc, toks)
    | _ => .ok (acc, toks)
  | fuel + 1, acc, toks =>
    match toks with
    | .op s :: tl =>
      if s ∈ cmpOps then do
        let (r, t) ← parseConcat fuel tl
        parseCmpLoop fuel (.binOp s acc r) t
      else .ok (acc, toks)
    | _ => .ok (acc, toks)

/-- Modelled from the spec: precedence level 6, string concatenation `&`. -/
def parseConcat : Nat → List Token → Except BaseErr (Expr × List Token)
  | 0, _ => .error .syntaxErr
  | fuel + 1, toks => do
    let (l, t) ← parseAdd fuel toks
    parseConcatLoop fuel l t

def parseConcatLoop : Nat → Expr → List Token → Except BaseErr (Expr × List Token)
  | 0, acc, toks =>
    match toks with
    | .op "&" :: _ => .error .syntaxErr
    | _ => .ok (acc, toks)
  | fuel + 1, acc, toks =>
    match toks with
    | .op "&" :: tl => do
      let (r, t) ← parseAdd fuel tl
      parseConcatLoop fuel (.binOp "&" acc r) t
    | _ => .ok (acc, toks)

/-- Modelled from the spec: precedence level 5, binary `+` and `-`
(left-associative). -/
def parseAdd : Nat → List Token → Except BaseErr (Expr × List Token)
  | 0, _ => .error .syntaxErr
  | fuel + 1, toks => do
    let (l, t) ← parseMul fuel toks
    parseAddLoop fuel l t

def parseAddLoop : Nat → Expr → List Token → Except BaseErr (Expr × List Token)
  | 0, acc, toks =>
    match toks with
    | .op s :: _ => if s = "+" || s = "-" then .error .syntaxErr else .ok (acc, toks)
    | _ => .ok (acc, toks)
  | fuel + 1, acc, toks =>
    match toks with
    | .op s :: tl =>
      if s = "+" || s = "-" then do
        let (r, t) ← parseMul fuel tl
        parseAddLoop fuel (.binOp s acc r) t
      else .ok (acc, toks)
    | _ => .ok (acc, toks)

/-- Modelled from the spec: precedence level 4, `*` and `/`
(left-associative). -/
def parseMul : Nat → List Token → Except BaseErr (Expr × List Token)
  | 0, _ => .error .syntaxErr
  | fuel + 1, toks => do
    let (l, t) ← parsePow fuel toks
    parseMulLoop fuel l t

def parseMulLoop : Nat → Expr → List Token → Except BaseErr (Expr × List Token)
  | 0, acc, toks =>
    match toks with
    | .op s :: _ => if s = "*" || s = "/" then .error .syntaxErr else .ok (acc, toks)
    | _ => .ok (acc, toks)
  | fuel + 1, acc, toks =>
    match toks with
    | .op s :: tl =>
      if s = "*" || s = "/" then do
        let (r, t) ← parsePow fuel tl
        parseMulLoop fuel (.binOp s acc r) t
      else .ok (acc, toks)
    | _ => .ok (acc, toks)

/-- Modelled from the spec: precedence level 3, `^`
(right-associative). -/
def parsePow : Nat → List Token → Except BaseErr (Expr × List Token)
  | 0, _ => .error .syntaxErr
  | fuel + 1, toks => do
    let (l, t) ← parseUnary fuel toks
    match t with
    | .op "^" :: tl => do
      let (r, t') ← parsePow fuel tl
      .ok (.binOp "^" l r, t')
    | _ => .ok (l, t)

/-- Modelled from the spec: precedence level 2, unary `-` and `+`. -/
def parseUnary : Nat → List Token → Except BaseErr (Expr × List Token)
  | 0, _ => .error .syntaxErr
  | fuel + 1, toks =>
    match toks with
    | .op s :: tl =>
      if s = "-" || s = "+" then do
        let (v, t) ← parseUnary fuel tl
        .ok (.unOp s v, t)
      else parsePrimary fuel toks
    | _ => parsePrimary fuel toks

/-- Modelled from the spec: primaries — literals, cell/range refs,
parenthesized expressions and function calls (§4.2 level 1).  Arity is
not checked here (§4.2: the Function Library validates it at evaluation
time). -/
def parsePrimary : Nat → List Token → Except BaseErr (Expr × List Token)
  | 0, _ => .error .syntaxErr
  | fuel + 1, toks =>
    match toks with
    | .number q :: tl => .ok (.numLit q, tl)
    | .strTok s :: tl => .ok (.strLit s, tl)
    | .cellRef c r :: tl => .ok (.cellRef c r, tl)
    | .rangeRef c1 r1 c2 r2 :: tl => .ok (.rangeRef c1 r1 c2 r2, tl)
    | .ident name :: tl =>
      (match tl with
       | .lparen :: .rparen :: tl2 => .ok (.funCall name .nil, tl2)
       | .lparen :: tl2 => do
         let (a, t) ← parseCmp fuel tl2
         let (args, t') ← parseArgsRest fuel t
         .ok (.funCall name (.cons a args), t')
       | _ => .error .syntaxErr)
    | .lparen :: tl => do
      let (e, t) ← parseCmp fuel tl
      match t with
      | .rparen :: t' => .ok (e, t')
      | _ => .error .syntaxErr
    | _ => .error .syntaxErr

/-- The remaining `, expr`* `)` of an argument list. -/
def parseArgsRest : Nat → List Token → Except BaseErr (ExprList × List Token)
  | 0, _ => .error .syntaxErr
  | fuel + 1, toks =>
    match toks with
    | .rparen :: tl => .ok (.nil, tl)
    | .comma :: tl => do
      let (a, t) ← parseCmp fuel tl
      let (args, t') ← parseArgsRest fuel t
      .ok (.cons a args, t')
    | _ => .error .syntaxErr

end

/-- Modelled from the spec: parse a whole token stream into one expression
tree; trailing tokens are a `SyntaxError` (§4.2). -/
def parseTokens (toks : List Token) : Except BaseErr Expr := do
  let (e, rest) ← parseCmp (32 * toks.length + 32) toks
  match rest with
  | [] => .ok e
  | _ => .error .syntaxErr

/-- Modelled from the spec: parse a formula string (the leading `=` is
stripped before tokenizing, §4.1). -/
def parseFormula (raw : String) : Except BaseErr Expr :=
  match raw.data with
  | '=' :: rest => do
    let toks ← tokenize rest
    parseTokens toks
  | _ => .error .syntaxErr

end Engine

namespace Engine

/-- A sheet position: (column, row), both 1-based (§3; the sheet is
implicit — cross-sheet references are out of scope). -/
abbrev Pos := Nat × Nat

/-- Modelled from the spec: parse a whole string as a signed number
(used for numeric coercion of literals and strings). -/
def parseNumString (cs : List Char) : Option ℚ :=
  let (neg, cs') : Bool × List Char :=
    match cs with
    | '-' :: tl => (true, tl)
    | '+' :: tl => (false, tl)
    | _ => (false, cs)
  match cs' with
  | [] => none
  | c :: _ =>
    if c.isDigit then
      match lexNumber cs' with
      | .ok (q, []) => some (if neg then -q else q)
      | _ => none
    else none

/-- Modelled from the spec: numeric coercion (§4.5).  The empty value is
0 in arithmetic (§4.3); Booleans are 1/0 (§4.5); a string is parsed as a
number and a non-numeric string is a `TypeMismatch`. -/
def toNumber : Value → Except EvalError ℚ
  | .num q => .ok q
  | .empty => .ok 0
  | .boolean b => .ok (if b then 1 else 0)
  | .str s =>
    match parseNumString s.data with
    | some q => .ok q
    | none => .error (.base .typeMismatch)

/-- Display form of a rational (a non-integral rational is shown as
`num/den`; decimal display formatting is out of scope of the claims). -/
def fmtRat (q : ℚ) : String :=
  if q.den = 1 then toString q.num
  else toString q.num ++ "/" ++ toString q.den

/-- Modelled from the spec: string coercion — the empty value is `""` in
concatenation (§4.3). -/
def toText : Value → String
  | .num q => fmtRat q
  | .str s => s
  | .boolean b => if b then "TRUE" else "FALSE"
  | .empty => ""

/-- Modelled from the spec: comparison of two values (§4.5): numeric if
either side is numeric, else string comparison; the result is a Boolean. -/
def isNumericSide : Value → Bool
  | .num _ => true
  | .boolean _ => true
  | .empty => true
  | .str _ => false

def cmpNum (op : String) (a b : ℚ) : Except EvalError Value :=
  match op with
  | "=" => .ok (.boolean (a = b))
  | "<>" => .ok (.boolean (a ≠ b))
  | "<" => .ok (.boolean (a < b))
  | "<=" => .ok (.boolean (a ≤ b))
  | ">" => .ok (.boolean (b < a))
  | ">=" => .ok (.boolean (b ≤ a))
  | _ => .error (.base .syntaxErr)

def cmpStr (op : String) (a b : String) : Except EvalError Value :=
  match op with
  | "=" => .ok (.boolean (a = b))
  | "<>" => .ok (.boolean (a ≠ b))
  | "<" => .ok (.boolean (a < b))
  | "<=" => .ok (.boolean (a < b || a = b))
  | ">" => .ok (.boolean (b < a))
  | ">=" => .ok (.boolean (b < a || a = b))
  | _ => .error (.base .syntaxErr)

/-- Modelled from the spec: binary operators (§4.5).  `+ - * /` coerce
both operands numerically (§9: `+` is always numeric); `/` with a zero
divisor is `DivisionByZero`; `^` needs an integral exponent; `&` is
string concatenation; comparisons return Booleans. -/
def evalBin (op : String) (l r : Value) : Except EvalError Value :=
  if op = "&" then .ok (.str (toText l ++ toText r))
  else if op ∈ cmpOps then
    if isNumericSide l || isNumericSide r then do
      let a ← toNumber l
      let b ← toNumber r
      cmpNum op a b
    else
      cmpStr op (toText l) (toText r)
  else do
    let a ← toNumber l
    let b ← toNumber r
    match op with
    | "+" => .ok (.num (a + b))
    | "-" => .ok (.num (a - b))
    | "*" => .ok (.num (a * b))
    | "/" =>
      if b = 0 then .error (.base .divisionByZero)
      else .ok (.num (a / b))
    | "^" =>
      if b.den = 1 then
        if b.num < 0 && a = 0 then .error (.base .divisionByZero)
        else .ok (.num (a ^ b.num))
      else .error (.base .typeMismatch)
    | _ => .error (.base .syntaxErr)

/-- Modelled from the spec: unary `-` and `+` (§4.2 level 2). -/
def evalUn (op : String) (v : Value) : Except EvalError Value := do
  let a ← toNumber v
  match op with
  | "-" => .ok (.num (-a))
  | "+" => .ok (.num a)
  | _ => .error (.base .syntaxErr)

/-- Modelled from the spec: truthiness of an `IF` condition (§4.4):
a nonzero number or a non-empty string. -/
def truthy : Value → Bool
  | .num q => q ≠ 0
  | .str s => s ≠ ""
  | .boolean b => b
  | .empty => false

/-- Row-major rectangle of positions of a range (§4.3: left-to-right
within a row, then top-to-bottom). -/
def rectPositions (c1 r1 c2 r2 : Nat) : List Pos :=
  (List.range' r1 (r2 + 1 - r1)).flatMap fun r =>
    (List.range' c1 (c2 + 1 - c1)).map fun c => (c, r)

/-- The numeric entries of a flattened value list (§4.4: non-numeric
entries are skipped by the aggregates). -/
def numericValues (vs : List Value) : List ℚ :=
  vs.filterMap fun v => match v with | .num q => some q | _ => none

/-- Modelled from the spec: the aggregate functions of §4.4 over an
already flattened value list.  `AVERAGE` of zero numeric values is
`DivisionByZero`. -/
def applyAgg (name : String) (vs : List Value) : Except EvalError Value :=
  let ns := numericValues vs
  match name with
  | "SUM" => .ok (.num (ns.foldl (· + ·) 0))
  | "COUNT" => .ok (.num (ns.length : ℚ))
  | "AVERAGE" =>
    if ns.length = 0 then .error (.base .divisionByZero)
    else .ok (.num (ns.foldl (· + ·) 0 / (ns.length : ℚ)))
  | "MIN" =>
    match ns with
    | [] => .ok (.num 0)
    | h :: t => .ok (.num (t.foldl min h))
  | "MAX" =>
    match ns with
    | [] => .ok (.num 0)
    | h :: t => .ok (.num (t.foldl max h))
  | _ => .error (.base .unknownFunction)

/-- The aggregate names whose arguments are flattened (§4.4). -/
def isAgg (name : String) : Bool :=
  name = "SUM" || name = "AVERAGE" || name = "COUNT" || name = "MIN" || name = "MAX"

mutual

/-- Modelled from the spec: the evaluator (§4.5) over an expression tree,
reading cell values through `reader`.  Of the function library (§4.4) the
aggregates and `IF` are modelled; the remaining helpers evaluate to
`UnknownFunctionError` here, which no claim exercises. -/
def evalExpr (reader : Pos → Except EvalError Value) : Expr → Except EvalError Value
  | .numLit q => .ok (.num q)
  | .strLit s => .ok (.str s)
  | .cellRef c r => reader (c, r)
  | .rangeRef _ _ _ _ => .error (.base .typeMismatch)
  | .binOp op l r => do
    let lv ← evalExpr reader l
    let rv ← evalExpr reader r
    evalBin op lv rv
  | .unOp op e => do
    let v ← evalExpr reader e
    evalUn op v
  | .funCall name args =>
    if isAgg name then do
      let vs ← evalFlat reader args
      applyAgg name vs
    else if name = "IF" then
      match args with
      | .cons c (.cons t (.cons f .nil)) => do
        let cv ← evalExpr reader c
        if truthy cv then evalExpr reader t else evalExpr reader f
      | _ => .error (.base .argumentError)
    else .error (.base .unknownFunction)

/-- Flattening of aggregate arguments (§4.4): a range argument
contributes the cell values of its rectangle, any other argument its
single value. -/
def evalFlat (reader : Pos → Except EvalError Value) :
    ExprList → Except EvalError (List Value)
  | .nil => .ok []
  | .cons a tl => do
    let vs ← (match a with
      | .rangeRef c1 r1 c2 r2 => (rectPositions c1 r1 c2 r2).mapM reader
      | _ => (evalExpr reader a).map fun v => [v])
    let rest ← evalFlat reader tl
    .ok (vs ++ rest)

end

end Engine

namespace Engine

mutual
/-- Modelled from the spec: the cell references an expression reads.
Both `IF` branches are registered (§4.4: dependency edges for both
branches' references). -/
def refsOfExpr : Expr → List Pos
  | .numLit _ => []
  | .strLit _ => []
  | .cellRef c r => [(c, r)]
  | .rangeRef c1 r1 c2 r2 => rectPositions c1 r1 c2 r2
  | .binOp _ l r => refsOfExpr l ++ refsOfExpr r
  | .unOp _ e => refsOfExpr e
  | .funCall _ args => refsOfList args
def refsOfList : ExprList → List Pos
  | .nil => []
  | .cons a tl => refsOfExpr a ++ refsOfList tl
end

/-- Modelled from the spec: the raw contents of one sheet — an
association list from position to raw cell input (the `CellStore` view
the engine reads). -/
abbrev Contents := List (Pos × String)

def lookupRaw (cells : Contents) (p : Pos) : Option String :=
  (cells.find? fun e => e.1 == p).map (·.2)

/-- A raw input is a formula iff it starts with `=` (§3,
`value.startsWith('=')` in the client). -/
def isFormula (raw : String) : Bool :=
  raw.data.head? = some '='

/-- Modelled from the spec: the outgoing dependency edges of a cell,
derived solely from the most recent parse of its formula (§3); a
malformed or absent formula has no edges (§4.6 step 1). -/
def depsOf (cells : Contents) (p : Pos) : List Pos :=
  match lookupRaw cells p with
  | some raw =>
    if isFormula raw then
      match parseFormula raw with
      | .ok e => refsOfExpr e
      | .error _ => []
    else []
  | none => []

/-- Modelled from the spec: `reachN cells n p q` — the dependency graph
has a path of length between 1 and `n` from `p` to one of the cells it
reads, ending at `q`. -/
def reachN (cells : Contents) : Nat → Pos → Pos → Bool
  | 0, _, _ => false
  | n + 1, p, q => (depsOf cells p).any fun r => r == q || reachN cells n r q

/-- A path bound that covers every simple dependency path: any simple
path visits each formula cell at most once. -/
def bigBound (cells : Contents) : Nat :=
  cells.length + 1

/-- `p` transitively reads `q`. -/
def reaches (cells : Contents) (p q : Pos) : Bool :=
  reachN cells (bigBound cells) p q

/-- Modelled from the spec: a cell on a structural dependency cycle
(§3: a cycle `A → B → ... → A` is detected, never silently tolerated).
The doubled bound absorbs the concatenation of two in-bound paths. -/
def onCycle (cells : Contents) (p : Pos) : Bool :=
  reachN cells (2 * bigBound cells) p p

/-- Modelled from the spec: the dirty closure of a write to `p` — the
cells transitively dependent on `p` via reverse edges, including `p`
itself (§4.6 step 3). -/
def dirtySet (cells : Contents) (p : Pos) : List Pos :=
  p :: (cells.map (·.1)).filter fun q => reaches cells q p

/-- Modelled from the spec: the value of a literal cell as the Reference
Resolver reads it (§4.3: coerced to number or string; unset/empty is the
empty value). -/
def literalValue (raw : String) : Value :=
  if raw = "" then .empty
  else
    match parseNumString raw.data with
    | some q => .num q
    | none => .str raw

/-- An error read through a reference becomes a `PropagatedError`
carrying the upstream base kind (§4.3, §7). -/
def propagateErr : EvalError → EvalError
  | .base k => .propagated k
  | .propagated k => .propagated k

/-- Reading a referenced cell's result: errors are contagious (§4.3). -/
def readWrap (r : Except EvalError Value) : Except EvalError Value :=
  match r with
  | .error e => .error (propagateErr e)
  | .ok v => .ok v

/-- Modelled from the spec: evaluation of one cell (§4.5, §4.6).  A cell
on a structural cycle is `CircularReference`; otherwise a formula cell is
parsed (a parse failure stores the `SyntaxError`) and evaluated, reading
referenced cells recursively; a literal cell is its coerced literal
value; an unset cell is empty.  `seen` is the `Evaluating` set of §4.6
(revisiting it would mean a cycle, which the structural check already
caught); the fuel only bounds the recursion and `cells.length + 1` always
suffices. -/
def evalPos (cells : Contents) : Nat → List Pos → Pos → Except EvalError Value
  | 0, _, _ => .error (.base .circularReference)
  | fuel + 1, seen, p =>
    match lookupRaw cells p with
    | none => .ok .empty
    | some raw =>
      if isFormula raw then
        if onCycle cells p then .error (.base .circularReference)
        else if p ∈ seen then .error (.base .circularReference)
        else
          match parseFormula raw with
          | .error e => .error (.base e)
          | .ok expr =>
            evalExpr (fun p' => readWrap (evalPos cells fuel (p :: seen) p')) expr
      else .ok (literalValue raw)

/-- The fuel that always suffices (one unit per formula cell on a path). -/
def evalFuel (cells : Contents) : Nat :=
  cells.length + 1

/-- Modelled from the spec: the recomputed result of one cell against the
current contents. -/
def cellResult (cells : Contents) (p : Pos) : Except EvalError Value :=
  evalPos cells (evalFuel cells) [] p

/-- Modelled from the spec: the Reference Resolver's view of a cell for
the stateless evaluation path (§4.3). -/
def readCellValue (cells : Contents) (p : Pos) : Except EvalError Value :=
  readWrap (cellResult cells p)

/-- Modelled from the spec: `Engine.evaluateFormula` — the stateless
one-shot evaluation path (§6) that reads the store but touches no
dependency graph. -/
def evaluateFormula (cells : Contents) (text : String) : Except EvalError Value :=
  if isFormula text then
    match parseFormula text with
    | .ok e => evalExpr (readCellValue cells) e
    | .error b => .error (.base b)
  else .ok (literalValue text)

/-- Modelled from the spec: the engine state — raw contents plus the
per-cell cached `calculatedValue` or error (§4.6). -/
structure EngineState where
  contents : Contents
  cached : Pos → Except EvalError Value

/-- Replace or insert the raw input at a position. -/
def setContent : Contents → Pos → String → Contents
  | [], p, raw => [(p, raw)]
  | (q, v) :: tl, p, raw =>
    if q = p then (p, raw) :: tl else (q, v) :: setContent tl p raw

/-- Modelled from the spec: `Engine.onCellWritten` (§4.6): store the new
raw input, mark the dirty closure of the written cell, and recompute
exactly the dirty cells against the new contents; every other cell keeps
its cached result. -/
def onCellWritten (s : EngineState) (p : Pos) (raw : String) : EngineState :=
  let cells := setContent s.contents p raw
  let dirty := dirtySet cells p
  { contents := cells
    cached := fun q => if q ∈ dirty then cellResult cells q else s.cached q }

end Engine

namespace Engine

theorem reachN_mono {cells : Contents} :
    ∀ {n m : Nat} {p q : Pos}, n ≤ m → reachN cells n p q = true →
      reachN cells m p q = true := by
  intro n
  induction n with
  | zero => intro m p q _ h; simp [reachN] at h
  | succ k ih =>
    intro m p q hle h
    match m, hle with
    | m + 1, hle =>
      simp only [reachN, List.any_eq_true] at h ⊢
      obtain ⟨r, hr, hor⟩ := h
      refine ⟨r, hr, ?_⟩
      rcases Bool.or_eq_true_iff.mp hor with h1 | h2
      · exact Bool.or_eq_true_iff.mpr (Or.inl h1)
      · exact Bool.or_eq_true_iff.mpr (Or.inr (ih (Nat.le_of_succ_le_succ hle) h2))

theorem reachN_append {cells : Contents} :
    ∀ {a b : Nat} {p q r : Pos}, reachN cells a p q = true →
      reachN cells b q r = true → reachN cells (a + b) p r = true := by
  intro a
  induction a with
  | zero => intro b p q r h; simp [reachN] at h
  | succ k ih =>
    intro b p q r h1 h2
    simp only [reachN, List.any_eq_true] at h1
    obtain ⟨d, hd, hor⟩ := h1
    have : k + 1 + b = (k + b) + 1 := by omega
    rw [this]
    simp only [reachN, List.any_eq_true]
    refine ⟨d, hd, ?_⟩
    rcases Bool.or_eq_true_iff.mp hor with he | hp
    · have : d = q := by simpa using he
      subst this
      exact Bool.or_eq_true_iff.mpr (Or.inr (reachN_mono (Nat.le_add_left b k) h2))
    · exact Bool.or_eq_true_iff.mpr (Or.inr (ih hp h2))

/-- A positive-length path out of `q` forces `q` to hold a formula. -/
theorem reachN_succ_formula {cells : Contents} {n : Nat} {q r : Pos}
    (h : reachN cells (n + 1) q r = true) :
    ∃ raw, lookupRaw cells q = some raw ∧ isFormula raw = true := by
  simp only [reachN, List.any_eq_true] at h
  obtain ⟨d, hd, -⟩ := h
  unfold depsOf at hd
  match hlook : lookupRaw cells q with
  | none => rw [hlook] at hd; simp at hd
  | some raw =>
    rw [hlook] at hd
    by_cases hf : isFormula raw
    · exact ⟨raw, rfl, hf⟩
    · simp [hf] at hd

theorem lookupRaw_mem_keys {cells : Contents} {q : Pos} {raw : String}
    (h : lookupRaw cells q = some raw) : q ∈ cells.map (·.1) := by
  unfold lookupRaw at h
  match hf : cells.find? fun e => e.1 == q with
  | none => rw [hf] at h; simp at h
  | some e =>
    have hmem := List.mem_of_find?_eq_some hf
    have hpred := List.find?_some hf
    have : e.1 = q := by simpa using hpred
    subst this
    exact List.mem_map_of_mem _ hmem

/-- Membership in the dirty closure of a write. -/
theorem mem_dirtySet {cells : Contents} {p q : Pos}
    (h : q = p ∨ reaches cells q p = true) : q ∈ dirtySet cells p := by
  rcases h with rfl | hr
  · exact List.mem_cons_self _ _
  · by_cases hqp : q = p
    · subst hqp; exact List.mem_cons_self _ _
    · refine List.mem_cons_of_mem _ (List.mem_filter.mpr ⟨?_, by simpa using hr⟩)
      have hb : bigBound cells = cells.length + 1 := rfl
      rw [reaches, hb] at hr
      obtain ⟨raw, hraw, -⟩ := reachN_succ_formula hr
      exact lookupRaw_mem_keys hraw

/-- Mutual reachability puts a cell on a structural cycle. -/
theorem onCycle_of_mutual {cells : Contents} {p q : Pos}
    (h1 : reaches cells q p = true) (h2 : reaches cells p q = true) :
    onCycle cells q = true := by
  unfold onCycle
  have := reachN_append h1 h2
  have h2b : bigBound cells + bigBound cells = 2 * bigBound cells := by omega
  rw [h2b] at this
  exact this

theorem setContent_lookup_self (l : Contents) (p : Pos) (raw : String) :
    lookupRaw (setContent l p raw) p = some raw := by
  induction l with
  | nil => simp [setContent, lookupRaw]
  | cons e tl ih =>
    by_cases he : e.1 = p
    · simp [setContent, he, lookupRaw]
    · simp only [setContent]
      rw [if_neg (by exact fun hc => he (by rw [hc]))]
      unfold lookupRaw
      rw [List.find?_cons_of_neg _ (by simpa using he)]
      exact ih

theorem setContent_lookup_other (l : Contents) (p q : Pos) (raw : String)
    (hne : q ≠ p) :
    lookupRaw (setContent l p raw) q = lookupRaw l q := by
  induction l with
  | nil =>
    simp only [setContent, lookupRaw]
    rw [List.find?_cons_of_neg _ (by simpa using fun h => hne h.symm)]
  | cons e tl ih =>
    by_cases he : e.1 = p
    · simp only [setContent, if_pos he]
      unfold lookupRaw
      rw [List.find?_cons_of_neg _ (by simpa using fun h => hne h.symm),
        List.find?_cons_of_neg _ (by rw [he]; simpa using fun h => hne h.symm)]
    · simp only [setContent, if_neg he]
      by_cases heq : e.1 = q
      · unfold lookupRaw
        rw [List.find?_cons_of_pos _ (by simpa using heq),
          List.find?_cons_of_pos _ (by simpa using heq)]
      · unfold lookupRaw at ih ⊢
        rw [List.find?_cons_of_neg _ (by simpa using heq),
          List.find?_cons_of_neg _ (by simpa using heq)]
        exact ih

end Engine

namespace Engine

/-- Positions of the store not yet in the `Evaluating` set. -/
def freshCount (cells : Contents) (seen : List Pos) : Nat :=
  ((cells.map (·.1)).filter fun q => decide (q ∉ seen)).length

theorem filter_length_mono {α : Type} (l : List α) (P Q : α → Bool)
    (himp : ∀ x, P x = true → Q x = true) :
    (l.filter P).length ≤ (l.filter Q).length := by
  induction l with
  | nil => simp
  | cons a tl ih =>
    by_cases haP : P a = true
    · rw [List.filter_cons_of_pos haP, List.filter_cons_of_pos (himp a haP)]
      simpa using ih
    · rw [List.filter_cons_of_neg (by simp [haP])]
      by_cases haQ : Q a = true
      · rw [List.filter_cons_of_pos haQ]
        simp only [List.length_cons]
        omega
      · rw [List.filter_cons_of_neg (by simp [haQ])]
        exact ih

theorem filter_length_lt {α : Type} (l : List α) (P Q : α → Bool)
    (himp : ∀ x, P x = true → Q x = true) :
    ∀ {x : α}, x ∈ l → Q x = true → P x = false →
      (l.filter P).length < (l.filter Q).length := by
  induction l with
  | nil => intro x hx; simp at hx
  | cons a tl ih =>
    intro x hx hQ hP
    rcases List.mem_cons.mp hx with rfl | hmem
    · rw [List.filter_cons_of_pos hQ, List.filter_cons_of_neg (by simp [hP])]
      have := filter_length_mono tl P Q himp
      simp only [List.length_cons]
      omega
    · by_cases haP : P a = true
      · rw [List.filter_cons_of_pos haP, List.filter_cons_of_pos (himp a haP)]
        simpa using ih hmem hQ hP
      · rw [List.filter_cons_of_neg (by simp [haP])]
        by_cases haQ : Q a = true
        · rw [List.filter_cons_of_pos haQ]
          have := ih hmem hQ hP
          simp only [List.length_cons]
          omega
        · rw [List.filter_cons_of_neg (by simp [haQ])]
          exact ih hmem hQ hP

/-- Pushing a fresh store position into the `Evaluating` set strictly
shrinks the fresh count. -/
theorem freshCount_cons_lt {cells : Contents} {seen : List Pos} {p : Pos}
    (hkey : p ∈ cells.map (·.1)) (hseen : p ∉ seen) :
    freshCount cells (p :: seen) < freshCount cells seen := by
  apply filter_length_lt _ _ _ ?_ hkey (by simpa using hseen)
    (by simp)
  intro x hx
  simp only [decide_eq_true_eq, List.mem_cons] at hx ⊢
  intro hmem
  exact hx (Or.inr hmem)

end Engine

namespace Engine

/-- Evaluation is independent of the fuel budget once the budget exceeds
the number of store positions not yet being evaluated. -/
theorem evalPos_fuel_irrelevant (cells : Contents) :
    ∀ (n : Nat) (seen : List Pos) (p : Pos) (f1 f2 : Nat),
      freshCount cells seen = n → n < f1 → n < f2 →
      evalPos cells f1 seen p = evalPos cells f2 seen p := by
  intro n
  induction n using Nat.strong_induction_on with
  | _ n ih =>
    intro seen p f1 f2 hn hf1 hf2
    match f1, f2 with
    | a + 1, b + 1 =>
      simp only [evalPos]
      match hlook : lookupRaw cells p with
      | none => rfl
      | some raw =>
        by_cases hform : isFormula raw = true
        · simp only [hform, if_true]
          by_cases hcy : onCycle cells p = true
          · simp [hcy]
          · simp only [Bool.not_eq_true] at hcy
            simp only [hcy, Bool.false_eq_true, if_false]
            by_cases hseen : p ∈ seen
            · simp [hseen]
            · simp only [hseen, if_false]
              match parseFormula raw with
              | .error e => rfl
              | .ok expr =>
                have hkey : p ∈ cells.map (·.1) := lookupRaw_mem_keys hlook
                have hlt : freshCount cells (p :: seen) < n := by
                  rw [← hn]
                  exact freshCount_cons_lt hkey hseen
                have hreader :
                    (fun p' => readWrap (evalPos cells a (p :: seen) p')) =
                    (fun p' => readWrap (evalPos cells b (p :: seen) p')) := by
                  funext p'
                  rw [ih _ hlt (p :: seen) p' a b rfl (by omega) (by omega)]
                rw [hreader]
        · simp [hform]

end Engine

namespace Engine

theorem depsOf_of_parse {cells : Contents} {q : Pos} {raw : String} {e : Expr}
    (hlook : lookupRaw cells q = some raw) (hform : isFormula raw = true)
    (hparse : parseFormula raw = .ok e) :
    depsOf cells q = refsOfExpr e := by
  unfold depsOf
  rw [hlook]
  simp [hform, hparse]

theorem reachN_false_of_deps_nil {cells : Contents} {p : Pos}
    (h : depsOf cells p = []) (n : Nat) (r : Pos) :
    reachN cells n p r = false := by
  cases n with
  | zero => rfl
  | succ k => simp [reachN, h]

theorem reaches_of_mem_deps {cells : Contents} {q p : Pos}
    (h : p ∈ depsOf cells q) : reaches cells q p = true := by
  unfold reaches bigBound
  simp only [reachN, List.any_eq_true]
  exact ⟨p, h, by simp⟩

end Engine

open Engine

/-- C2: a write that creates a dependency cycle marks every cell of the
cycle (every `q` mutually reachable with the written cell `p` in the new
dependency graph) with the `CircularReference` error, and no such cell
retains any prior cached value. -/
theorem c2_cycle_marks_all_members (s : EngineState) (p q : Pos) (raw : String)
    (h1 : reaches (onCellWritten s p raw).contents p q = true)
    (h2 : reaches (onCellWritten s p raw).contents q p = true) :
    (onCellWritten s p raw).cached q = .error (.base .circularReference) ∧
      ∀ v : Value, (onCellWritten s p raw).cached q ≠ .ok v := by
  have hcontents : (onCellWritten s p raw).contents = setContent s.contents p raw := rfl
  rw [hcontents] at h1 h2
  have hcy : onCycle (setContent s.contents p raw) q = true := onCycle_of_mutual h2 h1
  have hdirty : q ∈ dirtySet (setContent s.contents p raw) p := mem_dirtySet (Or.inr h2)
  obtain ⟨raw', hlook, hform⟩ := @reachN_succ_formula (setContent s.contents p raw)
    ((setContent s.contents p raw).length) q p (by exact h2)
  have hmain : (onCellWritten s p raw).cached q = .error (.base .circularReference) := by
    show (if q ∈ dirtySet (setContent s.contents p raw) p then
        cellResult (setContent s.contents p raw) q else s.cached q) = _
    rw [if_pos hdirty]
    unfold cellResult evalFuel
    simp [evalPos, hlook, hform, hcy]
  exact ⟨hmain, fun v hv => by rw [hmain] at hv; exact Except.noConfusion hv⟩

/-- Witness for C2 at the spec's own example: writing `A1 = "=B1"` then
`B1 = "=A1"` into an empty sheet leaves both cells, mutually reachable in
the graph, holding `CircularReference` and no numeric value. -/
theorem c2_cycle_marks_all_members_witness :
    (reaches (onCellWritten (onCellWritten ⟨[], fun _ => .ok .empty⟩ (1, 1) "=B1")
        (2, 1) "=A1").contents (2, 1) (1, 1) = true) ∧
    (onCellWritten (onCellWritten ⟨[], fun _ => .ok .empty⟩ (1, 1) "=B1")
        (2, 1) "=A1").cached (1, 1) = .error (.base .circularReference) := by
  refine ⟨by with_unfolding_all decide, ?_⟩
  exact (c2_cycle_marks_all_members
    (onCellWritten ⟨[], fun _ => .ok .empty⟩ (1, 1) "=B1") (2, 1) (1, 1) "=A1"
    (by with_unfolding_all decide) (by with_unfolding_all decide)).1

namespace Engine

theorem two_le_length_of_mem {α : Type} {a b : α} {l : List α}
    (hne : a ≠ b) (ha : a ∈ l) (hb : b ∈ l) : 2 ≤ l.length := by
  match l with
  | [] => simp at ha
  | [x] =>
    simp only [List.mem_singleton] at ha hb
    exact absurd (ha.trans hb.symm) hne
  | x :: y :: tl => simp only [List.length_cons]; omega

/-- One evaluation step, spelled out. -/
theorem evalPos_succ (cells : Contents) (fuel : Nat) (seen : List Pos) (p : Pos) :
    evalPos cells (fuel + 1) seen p =
      match lookupRaw cells p with
      | none => .ok .empty
      | some raw =>
        if isFormula raw then
          if onCycle cells p then .error (.base .circularReference)
          else if p ∈ seen then .error (.base .circularReference)
          else
            match parseFormula raw with
            | .error e => .error (.base e)
            | .ok expr =>
              evalExpr (fun p' => readWrap (evalPos cells fuel (p :: seen) p')) expr
        else .ok (literalValue raw) := rfl

theorem evalPos_formula (cells : Contents) {fuel : Nat} {seen : List Pos}
    {p : Pos} {raw : String} {e : Expr}
    (hlook : lookupRaw cells p = some raw)
    (hform : isFormula raw = true)
    (hcy : onCycle cells p = false)
    (hseen : p ∉ seen)
    (hparse : parseFormula raw = .ok e) :
    evalPos cells (fuel + 1) seen p =
      evalExpr (fun p' => readWrap (evalPos cells fuel (p :: seen) p')) e := by
  rw [evalPos_succ, hlook]
  simp only [hform, if_true, hcy, Bool.false_eq_true, if_false, hparse]
  rw [if_neg hseen]

end Engine
namespace Engine

/-- The per-argument contribution of an aggregate's argument list
(§4.4): a range argument reads its rectangle, any other argument its
single value. -/
def flatHead (reader : Pos → Except EvalError Value) (a : Expr) :
    Except EvalError (List Value) :=
  match a with
  | .rangeRef c1 r1 c2 r2 => (rectPositions c1 r1 c2 r2).mapM reader
  | _ => (evalExpr reader a).map fun v => [v]

theorem evalFlat_cons (reader : Pos → Except EvalError Value) (a : Expr)
    (tl : ExprList) :
    evalFlat reader (.cons a tl) =
      (flatHead reader a).bind (fun vs =>
        (evalFlat reader tl).bind (fun rest => .ok (vs ++ rest))) := by
  cases a <;> rfl

mutual
/-- A formula reads the evaluation error `err` strictly: evaluation is
guaranteed to hit a read returning `err` before producing any other
result — a bare reference returning `err`, a binary operation whose left
operand is strict (or whose left operand evaluates cleanly and whose
right operand is strict), a unary operation or `IF` condition over a
strict operand, or an aggregate whose flattened argument list is
strict. -/
inductive Strict (reader : Pos → Except EvalError Value) (err : EvalError) :
    Expr → Prop where
  | ref (c row : Nat) : reader (c, row) = .error err →
      Strict reader err (.cellRef c row)
  | binL (op : String) (l r : Expr) : Strict reader err l →
      Strict reader err (.binOp op l r)
  | binR (op : String) (l r : Expr) (v : Value) : evalExpr reader l = .ok v →
      Strict reader err r → Strict reader err (.binOp op l r)
  | un (op : String) (e : Expr) : Strict reader err e →
      Strict reader err (.unOp op e)
  | ifCond (c t f : Expr) : Strict reader err c →
      Strict reader err (.funCall "IF" (.cons c (.cons t (.cons f .nil))))
  | agg (name : String) (args : ExprList) : isAgg name = true →
      StrictFlat reader err args → Strict reader err (.funCall name args)

/-- The flattened argument list of an aggregate reads `err` strictly:
its first argument is strict, its first argument is a range whose
rectangle reaches a position read as `err` after cleanly-read ones, or
its first argument contributes cleanly and its tail is strict. -/
inductive StrictFlat (reader : Pos → Except EvalError Value) (err : EvalError) :
    ExprList → Prop where
  | headExpr (a : Expr) (tl : ExprList) : Strict reader err a →
      StrictFlat reader err (.cons a tl)
  | headRange (c1 r1 c2 r2 : Nat) (tl : ExprList) (ps1 : List Pos) (p : Pos)
      (ps2 : List Pos) :
      rectPositions c1 r1 c2 r2 = ps1 ++ p :: ps2 →
      (∀ p' ∈ ps1, ∃ v, reader p' = .ok v) →
      reader p = .error err →
      StrictFlat reader err (.cons (.rangeRef c1 r1 c2 r2) tl)
  | tail (a : Expr) (tl : ExprList) (vs : List Value) :
      flatHead reader a = .ok vs → StrictFlat reader err tl →
      StrictFlat reader err (.cons a tl)
end

theorem mapM_error_of_prefix {reader : Pos → Except EvalError Value}
    {err : EvalError} :
    ∀ (ps1 : List Pos) (p : Pos) (ps2 : List Pos),
      (∀ p' ∈ ps1, ∃ v, reader p' = .ok v) → reader p = .error err →
      (ps1 ++ p :: ps2).mapM reader = .error err := by
  intro ps1
  induction ps1 with
  | nil =>
    intro p ps2 _ hp
    rw [List.nil_append, List.mapM_cons, hp]
    rfl
  | cons q tl ih =>
    intro p ps2 hok hp
    obtain ⟨v, hv⟩ := hok q (List.mem_cons_self q tl)
    rw [List.cons_append, List.mapM_cons, hv]
    show ((tl ++ p :: ps2).mapM reader).bind (fun ys => pure (v :: ys)) = _
    rw [ih p ps2 (fun q' hq' => hok q' (List.mem_cons_of_mem q hq')) hp]
    rfl

mutual

/-- A strict read forces the whole evaluation to that error. -/
theorem Strict_eval {reader : Pos → Except EvalError Value} {err : EvalError} :
    ∀ {e : Expr}, Strict reader err e → evalExpr reader e = .error err
  | _, .ref c row h => by
    show reader (c, row) = .error err
    exact h
  | _, .binL op l r hl => by
    show (evalExpr reader l).bind
      (fun lv => (evalExpr reader r).bind (fun rv => evalBin op lv rv)) = .error err
    rw [Strict_eval hl]
    rfl
  | _, .binR op l r v hv hr => by
    show (evalExpr reader l).bind
      (fun lv => (evalExpr reader r).bind (fun rv => evalBin op lv rv)) = .error err
    rw [hv]
    show (evalExpr reader r).bind (fun rv => evalBin op v rv) = .error err
    rw [Strict_eval hr]
    rfl
  | _, .un op e he => by
    show (evalExpr reader e).bind (fun v => evalUn op v) = .error err
    rw [Strict_eval he]
    rfl
  | _, .ifCond c t f hc => by
    rw [evalExpr.eq_def]
    split
    all_goals rename_i heq
    any_goals (exfalso; exact Expr.noConfusion heq)
    injection heq with h1 h2
    subst h1
    subst h2
    rw [if_neg (by decide), if_pos rfl]
    show (evalExpr reader c).bind
      (fun cv => if truthy cv then evalExpr reader t else evalExpr reader f) =
      .error err
    rw [Strict_eval hc]
    rfl
  | _, .agg name args hagg hflat => by
    rw [evalExpr.eq_def]
    split
    all_goals rename_i heq
    any_goals (exfalso; exact Expr.noConfusion heq)
    injection heq with h1 h2
    subst h1
    subst h2
    rw [if_pos hagg, StrictFlat_eval hflat]
    rfl

theorem StrictFlat_eval {reader : Pos → Except EvalError Value} {err : EvalError} :
    ∀ {args : ExprList}, StrictFlat reader err args →
      evalFlat reader args = .error err
  | _, .headExpr a tl ha => by
    rw [evalFlat_cons]
    have h : flatHead reader a = .error err := by
      unfold flatHead
      split
      · rename_i c1 r1 c2 r2
        cases ha
      · rw [Strict_eval ha]
        rfl
    rw [h]
    rfl
  | _, .headRange c1 r1 c2 r2 tl ps1 p ps2 heq hok hp => by
    rw [evalFlat_cons]
    have h : flatHead reader (.rangeRef c1 r1 c2 r2) = .error err := by
      show (rectPositions c1 r1 c2 r2).mapM reader = .error err
      rw [heq]
      exact mapM_error_of_prefix ps1 p ps2 hok hp
    rw [h]
    rfl
  | _, .tail a tl vs hv htl => by
    rw [evalFlat_cons, hv]
    show (evalFlat reader tl).bind
      (fun rest => Except.ok (vs ++ rest)) = .error err
    rw [StrictFlat_eval htl]
    rfl

end

theorem isFormula_of_parse {raw : String} {e : Expr}
    (h : parseFormula raw = .ok e) : isFormula raw = true := by
  unfold parseFormula at h
  split at h
  · rename_i rest heq
    unfold isFormula
    rw [heq]
    rfl
  · exact absurd h (by simp)

end Engine

/-- C3 (amended): writing `=10/0` to cell `p` stores the `DivisionByZero`
error as the cell's result value (evaluation is a total function of the
store — no exception escapes it), and every formula that reads the
errored cell strictly — a bare reference, a binary or unary operation
whose operands up to the reference evaluate cleanly, an `IF` condition,
or an aggregate whose flattened arguments meet the errored cell after
cleanly-read ones — evaluates against the written store to
`PropagatedError` wrapping `DivisionByZero`.  A reference occurring only
in an untaken `IF` branch is a recorded dependency but evaluates without
the error (see the counterexample). -/
theorem c3_division_by_zero_propagates (s : EngineState) (p : Pos)
    (qraw : String) (e : Expr)
    (hparse : parseFormula qraw = .ok e)
    (hstrict : Strict (readCellValue (setContent s.contents p "=10/0"))
      (.propagated .divisionByZero) e) :
    (onCellWritten s p "=10/0").cached p = .error (.base .divisionByZero) ∧
    evaluateFormula (setContent s.contents p "=10/0") qraw =
      .error (.propagated .divisionByZero) := by
  set cells := setContent s.contents p "=10/0" with hcells
  have hlookp : lookupRaw cells p = some "=10/0" := setContent_lookup_self _ _ _
  have hparsediv : parseFormula "=10/0" =
      .ok (.binOp "/" (.numLit 10) (.numLit 0)) := by with_unfolding_all decide
  have hformdiv : isFormula "=10/0" = true := by with_unfolding_all decide
  have hdepsp : depsOf cells p = [] := by
    rw [depsOf_of_parse hlookp hformdiv hparsediv]; rfl
  have hcyp : onCycle cells p = false := reachN_false_of_deps_nil hdepsp _ _
  have hdivEval : ∀ rdr : Pos → Except EvalError Value,
      evalExpr rdr (.binOp "/" (.numLit 10) (.numLit 0)) =
        .error (.base .divisionByZero) := fun rdr => by
    with_unfolding_all rfl
  have hevalp : ∀ (fuel : Nat) (seen : List Pos), p ∉ seen →
      evalPos cells (fuel + 1) seen p = .error (.base .divisionByZero) := by
    intro fuel seen hseen
    rw [evalPos_formula cells hlookp hformdiv hcyp hseen hparsediv]
    exact hdivEval _
  constructor
  · show (if p ∈ dirtySet cells p then cellResult cells p else s.cached p) = _
    rw [if_pos (mem_dirtySet (Or.inl rfl))]
    unfold cellResult evalFuel
    exact hevalp cells.length [] (by simp)
  · have hform : isFormula qraw = true := isFormula_of_parse hparse
    unfold evaluateFormula
    rw [if_pos hform, hparse]
    exact Strict_eval hstrict

/-- Witness for C3's amended statement: on an empty sheet, writing
`=10/0` to `A1` stores `DivisionByZero` on `A1`, and both `=A1+1` and
`=SUM(A1:A2)` — formulas whose whole text is not a bare reference —
evaluate against the written store to
`PropagatedError(DivisionByZero)`. -/
theorem c3_division_by_zero_propagates_witness :
    parseFormula "=A1+1" = .ok (.binOp "+" (.cellRef 1 1) (.numLit 1)) ∧
    parseFormula "=SUM(A1:A2)" =
      .ok (.funCall "SUM" (.cons (.rangeRef 1 1 1 2) .nil)) ∧
    (onCellWritten ⟨[], fun _ => .ok .empty⟩ (1, 1) "=10/0").cached (1, 1) =
      .error (.base .divisionByZero) ∧
    evaluateFormula (setContent ([] : Contents) (1, 1) "=10/0") "=A1+1" =
      .error (.propagated .divisionByZero) ∧
    evaluateFormula (setContent ([] : Contents) (1, 1) "=10/0") "=SUM(A1:A2)" =
      .error (.propagated .divisionByZero) := by
  have h1 := c3_division_by_zero_propagates ⟨[], fun _ => .ok .empty⟩ (1, 1)
    "=A1+1" (.binOp "+" (.cellRef 1 1) (.numLit 1)) (by with_unfolding_all decide)
    (Strict.binL "+" _ _ (Strict.ref 1 1 (by with_unfolding_all decide)))
  have h2 := c3_division_by_zero_propagates ⟨[], fun _ => .ok .empty⟩ (1, 1)
    "=SUM(A1:A2)" (.funCall "SUM" (.cons (.rangeRef 1 1 1 2) .nil))
    (by with_unfolding_all decide)
    (Strict.agg "SUM" _ (by with_unfolding_all decide)
      (StrictFlat.headRange 1 1 1 2 .nil [] (1, 1) [(1, 2)]
        (by with_unfolding_all decide)
        (fun p' hp' => absurd hp' (List.not_mem_nil p'))
        (by with_unfolding_all decide)))
  exact ⟨by with_unfolding_all decide, by with_unfolding_all decide,
    h1.1, h1.2, h2.2⟩

/-- Counterexample to C3 as stated: `B1 = "=IF(1,2,A1)"` references the
errored cell `A1` (the reference is among the formula's extracted
dependency edges), yet after `=10/0` is written to `A1`, `B1`'s cached
result is the ok-value 2 — the reference sits in the untaken `IF` branch,
so no `PropagatedError` arises. -/
theorem c3_untaken_branch_not_propagated :
    parseFormula "=IF(1,2,A1)" =
      .ok (.funCall "IF" (.cons (.numLit 1) (.cons (.numLit 2)
        (.cons (.cellRef 1 1) .nil)))) ∧
    (1, 1) ∈ refsOfExpr (.funCall "IF" (.cons (.numLit 1) (.cons (.numLit 2)
        (.cons (.cellRef 1 1) .nil)))) ∧
    (onCellWritten ⟨[((1, 2), "=IF(1,2,A1)")], fun _ => .ok .empty⟩
        (1, 1) "=10/0").cached (1, 1) = .error (.base .divisionByZero) ∧
    (onCellWritten ⟨[((1, 2), "=IF(1,2,A1)")], fun _ => .ok .empty⟩
        (1, 1) "=10/0").cached (1, 2) = .ok (.num 2) :=
  ⟨by with_unfolding_all decide, by with_unfolding_all decide,
   by with_unfolding_all decide, by with_unfolding_all decide⟩

/-- C5: after a write to cell `p`, every cell `B` whose formula reads `p`
holds the recomputation of its formula against the new contents, and
every cell outside the dirty closure of `p` (the transitive dependents of
`p` plus `p` itself) keeps its previous cached value untouched. -/
theorem c5_dependent_recomputed_frame (s : EngineState) (p B : Pos) (raw : String)
    (hdep : p ∈ depsOf (setContent s.contents p raw) B) :
    (onCellWritten s p raw).cached B =
      cellResult (setContent s.contents p raw) B ∧
    ∀ q : Pos, q ∉ dirtySet (setContent s.contents p raw) p →
      (onCellWritten s p raw).cached q = s.cached q := by
  constructor
  · show (if B ∈ dirtySet (setContent s.contents p raw) p then
        cellResult (setContent s.contents p raw) B else s.cached B) = _
    rw [if_pos (mem_dirtySet (Or.inr (reaches_of_mem_deps hdep)))]
  · intro q hq
    show (if q ∈ dirtySet (setContent s.contents p raw) p then
        cellResult (setContent s.contents p raw) q else s.cached q) = _
    rw [if_neg hq]

set_option maxRecDepth 4000 in
/-- Witness for C5 at the spec's §8 scenario scaled by 1/1000 (witness
evaluation is kept small): `A1 = 50`, `A2 = 35`, `A3 = "=A1-A2"` cached at
15; writing `A1 = 60` recomputes `A3` to 25 and leaves the unrelated cell
`(9, 9)` untouched. -/
theorem c5_dependent_recomputed_frame_witness :
    ((1, 1) ∈ depsOf (setContent
        [((1, 1), "50"), ((1, 2), "35"), ((1, 3), "=A1-A2")]
        (1, 1) "60") (1, 3)) ∧
    (onCellWritten ⟨[((1, 1), "50"), ((1, 2), "35"), ((1, 3), "=A1-A2")],
        fun q => if q = (1, 3) then .ok (.num 15) else .ok .empty⟩
        (1, 1) "60").cached (1, 3) =
      cellResult (setContent
        [((1, 1), "50"), ((1, 2), "35"), ((1, 3), "=A1-A2")]
        (1, 1) "60") (1, 3) ∧
    cellResult (setContent
        [((1, 1), "50"), ((1, 2), "35"), ((1, 3), "=A1-A2")]
        (1, 1) "60") (1, 3) = .ok (.num 25) ∧
    (onCellWritten ⟨[((1, 1), "50"), ((1, 2), "35"), ((1, 3), "=A1-A2")],
        fun q => if q = (1, 3) then .ok (.num 15) else .ok .empty⟩
        (1, 1) "60").cached (9, 9) = .ok .empty := by
  have hdep : (1, 1) ∈ depsOf (setContent
      [((1, 1), "50"), ((1, 2), "35"), ((1, 3), "=A1-A2")]
      (1, 1) "60") (1, 3) := by with_unfolding_all decide
  refine ⟨hdep, ?_, by with_unfolding_all decide, ?_⟩
  · exact (c5_dependent_recomputed_frame
      ⟨[((1, 1), "50"), ((1, 2), "35"), ((1, 3), "=A1-A2")],
        fun q => if q = (1, 3) then .ok (.num 15) else .ok .empty⟩
      (1, 1) (1, 3) "60" hdep).1
  · have hframe := (c5_dependent_recomputed_frame
      ⟨[((1, 1), "50"), ((1, 2), "35"), ((1, 3), "=A1-A2")],
        fun q => if q = (1, 3) then .ok (.num 15) else .ok .empty⟩
      (1, 1) (1, 3) "60" hdep).2 (9, 9) (by with_unfolding_all decide)
    rw [hframe]
    rfl

/-- C9: recomputation is deterministic — for fixed cell contents, any two
evaluation runs with sufficient budgets (in particular a run before and a
run after an engine restart) return the identical result for every cell,
and both coincide with the engine's own `cellResult`. -/
theorem c9_recalculation_deterministic (cells : Contents) (p : Pos)
    (f1 f2 : Nat) (h1 : cells.length < f1) (h2 : cells.length < f2) :
    evalPos cells f1 [] p = evalPos cells f2 [] p ∧
    evalPos cells f1 [] p = cellResult cells p := by
  have hfc : freshCount cells [] = cells.length := by
    unfold freshCount
    simp
  constructor
  · exact evalPos_fuel_irrelevant cells cells.length [] p f1 f2 hfc h1 h2
  · exact evalPos_fuel_irrelevant cells cells.length [] p f1 (cells.length + 1) hfc h1
      (by omega)

/-- Witness for C9: two runs with different budgets over the same two-cell
sheet agree, and agree with `cellResult`. -/
theorem c9_recalculation_deterministic_witness :
    (([((1, 1), "=B1"), ((2, 1), "2")] : Contents).length < 5 ∧
      ([((1, 1), "=B1"), ((2, 1), "2")] : Contents).length < 17) ∧
    (evalPos [((1, 1), "=B1"), ((2, 1), "2")] 5 [] (1, 1) =
        evalPos [((1, 1), "=B1"), ((2, 1), "2")] 17 [] (1, 1) ∧
      evalPos [((1, 1), "=B1"), ((2, 1), "2")] 5 [] (1, 1) =
        cellResult [((1, 1), "=B1"), ((2, 1), "2")] (1, 1)) :=
  ⟨⟨by decide, by decide⟩,
   c9_recalculation_deterministic [((1, 1), "=B1"), ((2, 1), "2")] (1, 1) 5 17
     (by decide) (by decide)⟩

/-- C4 (amended): `SUM(A1:A3)` agrees with `A1+A2+A3` whenever each of
A1, A2, A3 reads as a number or as empty (empty counts as 0 on both
sides).  For a non-numeric text cell the two differ: SUM skips it while
`+` fails with `TypeMismatch` (see the counterexample). -/
theorem c4_sum_equals_plus_on_numeric (cells : Contents) (v1 v2 v3 : Value)
    (h1 : readCellValue cells (1, 1) = .ok v1)
    (h2 : readCellValue cells (1, 2) = .ok v2)
    (h3 : readCellValue cells (1, 3) = .ok v3)
    (n1 : (∃ q, v1 = .num q) ∨ v1 = .empty)
    (n2 : (∃ q, v2 = .num q) ∨ v2 = .empty)
    (n3 : (∃ q, v3 = .num q) ∨ v3 = .empty) :
    evaluateFormula cells "=SUM(A1:A3)" = evaluateFormula cells "=A1+A2+A3" := by
  have hp1 : parseFormula "=SUM(A1:A3)" =
      .ok (.funCall "SUM" (.cons (.rangeRef 1 1 1 3) .nil)) := by
    with_unfolding_all decide
  have hp2 : parseFormula "=A1+A2+A3" =
      .ok (.binOp "+" (.binOp "+" (.cellRef 1 1) (.cellRef 1 2)) (.cellRef 1 3)) := by
    with_unfolding_all decide
  have hf1 : isFormula "=SUM(A1:A3)" = true := by with_unfolding_all decide
  have hf2 : isFormula "=A1+A2+A3" = true := by with_unfolding_all decide
  have hrect : rectPositions 1 1 1 3 = [(1, 1), (1, 2), (1, 3)] := rfl
  unfold evaluateFormula
  rw [hf1, hf2, if_pos rfl, if_pos rfl, hp1, hp2]
  simp only [evalExpr, evalFlat, hrect, List.mapM_cons, List.mapM_nil, h1, h2, h3,
    List.append_nil]
  rcases n1 with ⟨q1, rfl⟩ | rfl <;> rcases n2 with ⟨q2, rfl⟩ | rfl <;>
    rcases n3 with ⟨q3, rfl⟩ | rfl <;>
    simp [applyAgg, numericValues, evalBin, toNumber, isAgg, cmpOps,
      Bind.bind, Except.bind, Pure.pure, Except.pure]

set_option maxRecDepth 2000 in
/-- Witness for C4's amended statement: `A1 = 5`, `A2 = 1`, `A3` unset
(empty); both formulas evaluate identically (to 6). -/
theorem c4_sum_equals_plus_on_numeric_witness :
    readCellValue [((1, 1), "5"), ((1, 2), "1")] (1, 1) = .ok (.num 5) ∧
    evaluateFormula [((1, 1), "5"), ((1, 2), "1")] "=SUM(A1:A3)" =
      evaluateFormula [((1, 1), "5"), ((1, 2), "1")] "=A1+A2+A3" :=
  ⟨by with_unfolding_all decide,
   c4_sum_equals_plus_on_numeric [((1, 1), "5"), ((1, 2), "1")]
     (.num 5) (.num 1) .empty
     (by with_unfolding_all decide) (by with_unfolding_all decide)
     (by with_unfolding_all decide)
     (Or.inl ⟨5, rfl⟩) (Or.inl ⟨1, rfl⟩) (Or.inr rfl)⟩

set_option maxRecDepth 2000 in
/-- Counterexample to C4 as stated: with the non-numeric text `abc` in
A1, `SUM(A1:A3)` skips it and yields 3 while `A1+A2+A3` fails with
`TypeMismatch` — the engine's `+` does not treat a non-numeric cell as 0. -/
theorem c4_sum_vs_plus_counterexample :
    evaluateFormula [((1, 1), "abc"), ((1, 2), "1"), ((1, 3), "2")] "=SUM(A1:A3)" =
      .ok (.num 3) ∧
    evaluateFormula [((1, 1), "abc"), ((1, 2), "1"), ((1, 3), "2")] "=A1+A2+A3" =
      .error (.base .typeMismatch) ∧
    evaluateFormula [((1, 1), "abc"), ((1, 2), "1"), ((1, 3), "2")] "=SUM(A1:A3)" ≠
      evaluateFormula [((1, 1), "abc"), ((1, 2), "1"), ((1, 3), "2")] "=A1+A2+A3" := by
  refine ⟨?_, ?_, ?_⟩ <;> with_unfolding_all decide

/-- C7 (amended): `getColumnLetter` in `ResizableGrid.tsx` implements the
spec's general base-26 encoding with carry for every column `n ≥ 1`, and
the `String.fromCharCode(64 + column)` path in `spreadsheet.tsx` agrees
with that encoding only for columns 1–26 (it diverges at 27, see the
counterexample). -/
theorem c7_column_letters (n : Nat) (h1 : 1 ≤ n) :
    Client.getColumnLetter n = Client.specColumnLetters n ∧
    (n ≤ 26 → Client.colLetterNaive n = Client.specColumnLetters n) := by
  constructor
  · rw [Client.getColumnLetter, Client.getColumnLetterLoop_eq]
    simp
  · intro h2
    rw [Client.specColumnLetters_small h1 h2]
    rfl

/-- Witness for C7's amended statement at `n = 26`. -/
theorem c7_column_letters_witness :
    (1 : Nat) ≤ 26 ∧
    Client.getColumnLetter 26 = Client.specColumnLetters 26 ∧
    Client.colLetterNaive 26 = Client.specColumnLetters 26 :=
  ⟨by decide, (c7_column_letters 26 (by decide)).1,
   (c7_column_letters 26 (by decide)).2 (by decide)⟩

/-- Counterexample to C7 as stated: at column 27 the spec's base-26
encoding gives `AA`, but the `String.fromCharCode(64 + column)` rendering
path in `spreadsheet.tsx` gives `[` — not every code path that renders a
column letter agrees with the encoding. -/
theorem c7_column_letters_counterexample :
    Client.specColumnLetters 27 = "AA" ∧ Client.colLetterNaive 27 = "[" ∧
    Client.colLetterNaive 27 ≠ Client.specColumnLetters 27 := by
  have h : Client.specColumnLetters 27 = "AA" := by
    rw [Client.specColumnLetters]; norm_num
    rw [Client.specColumnLetters]; norm_num
    rw [Client.specColumnLetters]; norm_num
    decide
  refine ⟨h, by decide, ?_⟩
  rw [h]
  decide

/-- C6 (amended): the state partition is established by input
classification and cell creation, but it is not an update invariant.
Every cell of the initial sample state pairs `dataType = "formula"`
exactly with the presence of a formula string; `handleCellUpdate`
classifies every input into exactly one of formula/number/text, recording
a formula exactly for `=`-inputs; and a cell freshly created from a
classified input pairs `dataType = "formula"` exactly with a present
formula.  The update path does not preserve the pairing: overwriting the
sample formula cell `B3` with a literal leaves `dataType = "text"`
together with the stale formula `=B1-B2`, because the spread-merge keeps
any field the update body omits; and a formula cell may lack both a
cached `calculatedValue` and an error (see the counterexample). -/
theorem c6_cell_state_partition :
    (∀ c ∈ Store.sampleStorage.cells,
      (c.dataType = "formula" ∧ c.formula ≠ none) ∨
      (c.dataType ≠ "formula" ∧ c.formula = none)) ∧
    (∀ (isNum : String → Bool) (v : String),
      ((Client.processCellInput isNum v none).2.2 = "formula" ∧
        (Client.processCellInput isNum v none).2.1 = some v) ∨
      ((Client.processCellInput isNum v none).2.2 ≠ "formula" ∧
        (Client.processCellInput isNum v none).2.1 = none)) ∧
    (∀ (s : Store.Storage) (sheetId row column : Nat)
      (isNum : String → Bool) (v : String),
      ((Store.createCell s sheetId row column
          (Client.updatesOfInput isNum v)).2.dataType = "formula" ∧
        (Store.createCell s sheetId row column
          (Client.updatesOfInput isNum v)).2.formula ≠ none) ∨
      ((Store.createCell s sheetId row column
          (Client.updatesOfInput isNum v)).2.dataType ≠ "formula" ∧
        (Store.createCell s sheetId row column
          (Client.updatesOfInput isNum v)).2.formula = none)) ∧
    (Store.updateCellByPosition Store.sampleStorage 1 3 2
        (Client.updatesOfInput (fun _ => false) "100")).map
      (fun pr => (pr.2.dataType, pr.2.formula)) =
      some ("text", some "=B1-B2") := by
  refine ⟨?_, ?_, ?_, ?_⟩
  · intro c hc
    fin_cases hc <;> simp [Store.sampleStorage, Store.sampleCells]
  · intro isNum v
    unfold Client.processCellInput
    by_cases hs : v.startsWith "="
    · simp [hs]
    · by_cases hn : (isNum v && v != "") = true
      · simp [hs, hn]
      · simp [hs, hn]
  · intro s sheetId row column isNum v
    unfold Client.updatesOfInput Client.processCellInput
    by_cases hs : v.startsWith "="
    · simp [hs, Store.createCell]
    · by_cases hn : (isNum v && v != "") = true
      · simp [hs, hn, Store.createCell]
      · simp [hs, hn, Store.createCell]
  · with_unfolding_all decide

/-- Witness for C6's amended statement: the formula input `=B1` is
classified as a formula write, and creating a fresh cell from that
classified input yields a cell whose `dataType` is `"formula"` with the
formula recorded. -/
theorem c6_cell_state_partition_witness :
    (((Client.processCellInput (fun _ => false) "=B1" none).2.2 = "formula" ∧
      (Client.processCellInput (fun _ => false) "=B1" none).2.1 = some "=B1") ∨
    ((Client.processCellInput (fun _ => false) "=B1" none).2.2 ≠ "formula" ∧
      (Client.processCellInput (fun _ => false) "=B1" none).2.1 = none)) ∧
    (((Store.createCell Store.sampleStorage 1 4 1
        (Client.updatesOfInput (fun _ => false) "=B1")).2.dataType = "formula" ∧
      (Store.createCell Store.sampleStorage 1 4 1
        (Client.updatesOfInput (fun _ => false) "=B1")).2.formula ≠ none) ∨
    ((Store.createCell Store.sampleStorage 1 4 1
        (Client.updatesOfInput (fun _ => false) "=B1")).2.dataType ≠ "formula" ∧
      (Store.createCell Store.sampleStorage 1 4 1
        (Client.updatesOfInput (fun _ => false) "=B1")).2.formula = none)) :=
  ⟨c6_cell_state_partition.2.1 (fun _ => false) "=B1",
   c6_cell_state_partition.2.2.1 Store.sampleStorage 1 4 1 (fun _ => false) "=B1"⟩

/-- Counterexample to C6 as stated: the sample storage (a reachable store
state — it is the initial one) contains a formula cell, `B3 = "=B1-B2"`,
with neither a cached `calculatedValue` nor an error. -/
theorem c6_cell_state_partition_counterexample :
    ∃ c, Store.getCell Store.sampleStorage 1 3 2 = some c ∧
      c.dataType = "formula" ∧ c.formula = some "=B1-B2" ∧
      c.calculatedValue = none ∧ c.error = none := by
  refine ⟨(⟨8, 1, 3, 2, some "=B1-B2", some "=B1-B2", "formula", none, none⟩ :
    Store.Cell), ?_, rfl, rfl, rfl, rfl⟩
  decide

/-- C10 (amended): `updateCellByPosition` preserves at-most-one-cell-per-
position for every update object that does not itself move the cell
(no `sheetId`, `row` or `column` field in the updates — as at every call
site in the repository).  An update carrying a position field can move a
cell onto an occupied position (see the counterexample). -/
theorem c10_at_most_one_cell_per_position (s : Store.Storage)
    (sheetId row column : Nat) (u : Store.CellUpdates)
    (hpos : Store.posFree u)
    (hinv : Store.atMostOnePerPos s.cells) :
    ∀ s' c', Store.updateCellByPosition s sheetId row column u = some (s', c') →
      Store.atMostOnePerPos s'.cells := by
  intro s' c' h
  unfold Store.updateCellByPosition at h
  match hg : Store.getCell s sheetId row column with
  | some existing =>
    rw [hg] at h
    have h2 : Store.updateCell s existing.id u = some (s', c') := h
    unfold Store.updateCell at h2
    match hu : Store.updateCellList s.cells existing.id u with
    | none =>
      rw [hu] at h2
      exact absurd h2 (by simp)
    | some p =>
      rw [hu] at h2
      have h3 : (some (({ s with cells := p.1 } : Store.Storage), p.2) :
          Option (Store.Storage × Store.Cell)) = some (s', c') := h2
      have h4 := Option.some.inj h3
      have hfst2 : ({ s with cells := p.1 } : Store.Storage) = s' := congrArg Prod.fst h4
      have hcells : s'.cells = p.1 := by rw [← hfst2]
      have hmap := @Store.updateCellList_map_posOf s.cells existing.id u hpos p.1 p.2 (by
        rw [hu])
      rw [Store.atMostOnePerPos_iff] at hinv ⊢
      rw [hcells, hmap]
      exact hinv
  | none =>
    rw [hg] at h
    have h2 : some (Store.createCell s sheetId row column u) = some (s', c') := h
    simp only [Option.some.injEq] at h2
    have hfst : (Store.createCell s sheetId row column u).1 = s' :=
      congrArg Prod.fst h2
    have hcells : s'.cells = s.cells ++
        [(Store.createCell s sheetId row column u).2] := by
      rw [← hfst]
      rfl
    have hnone : ∀ c ∈ s.cells,
        ¬(c.sheetId = sheetId ∧ c.row = row ∧ c.column = column) := by
      intro c hc hcontra
      have := List.find?_eq_none.mp hg c hc
      simp only [Bool.and_eq_true, beq_iff_eq] at this
      tauto
    rw [hcells]
    unfold Store.atMostOnePerPos
    rw [List.pairwise_append]
    refine ⟨hinv, List.pairwise_singleton _ _, ?_⟩
    intro a ha b hb
    simp only [List.mem_singleton] at hb
    subst hb
    intro hcontra
    exact hnone a ha ⟨hcontra.1, hcontra.2.1, hcontra.2.2⟩

/-- Witness for C10's amended statement: a position-free value update on
a two-cell store keeps positions unique. -/
theorem c10_at_most_one_cell_per_position_witness :
    Store.posFree { value := some "x" } ∧
    Store.atMostOnePerPos
      [(⟨1, 1, 1, 1, some "a", none, "text", none, none⟩ : Store.Cell),
       ⟨2, 1, 2, 1, some "b", none, "text", none, none⟩] ∧
    ∀ s' c', Store.updateCellByPosition
        ⟨[⟨1, 1, 1, 1, some "a", none, "text", none, none⟩,
          ⟨2, 1, 2, 1, some "b", none, "text", none, none⟩], 3⟩
        1 1 1 { value := some "x" } = some (s', c') →
      Store.atMostOnePerPos s'.cells :=
  ⟨⟨rfl, rfl, rfl⟩, by decide,
   c10_at_most_one_cell_per_position
     ⟨[⟨1, 1, 1, 1, some "a", none, "text", none, none⟩,
       ⟨2, 1, 2, 1, some "b", none, "text", none, none⟩], 3⟩
     1 1 1 { value := some "x" } ⟨rfl, rfl, rfl⟩ (by decide)⟩

/-- Counterexample to C10 as stated: an update object carrying
`row := 2` (a legal `Partial<Cell>`) moves the cell at (1, 1, 1) onto the
occupied position (1, 2, 1), leaving two cells at one position. -/
theorem c10_at_most_one_cell_per_position_counterexample :
    Store.atMostOnePerPos
      [(⟨1, 1, 1, 1, some "a", none, "text", none, none⟩ : Store.Cell),
       ⟨2, 1, 2, 1, some "b", none, "text", none, none⟩] ∧
    Store.updateCellByPosition
        ⟨[⟨1, 1, 1, 1, some "a", none, "text", none, none⟩,
          ⟨2, 1, 2, 1, some "b", none, "text", none, none⟩], 3⟩
        1 1 1 { row := some 2 } =
      some (⟨[⟨1, 1, 2, 1, some "a", none, "text", none, none⟩,
          ⟨2, 1, 2, 1, some "b", none, "text", none, none⟩], 3⟩,
        ⟨1, 1, 2, 1, some "a", none, "text", none, none⟩) ∧
    ¬ Store.atMostOnePerPos
      [(⟨1, 1, 2, 1, some "a", none, "text", none, none⟩ : Store.Cell),
       ⟨2, 1, 2, 1, some "b", none, "text", none, none⟩] := by
  refine ⟨by decide, by decide, by decide⟩

namespace Store

instance : DecidablePred idsDistinct := fun l =>
  inferInstanceAs (Decidable (l.Pairwise _))

/-- The `getCell` position predicate is untouched by a position-free merge. -/
theorem getCellPred_mergeCell {u : CellUpdates} (hpos : posFree u)
    (sid r c : Nat) (cell : Cell) :
    (fun x : Cell => x.sheetId == sid && x.row == r && x.column == c)
        (mergeCell cell u) =
      (fun x : Cell => x.sheetId == sid && x.row == r && x.column == c) cell := by
  obtain ⟨h1, h2, h3⟩ := hpos
  simp [mergeCell, h1, h2, h3]

end Store

/-- C8: lifecycle of a cell position.
(a) A position never written has no stored cell;
(b) an unset position reads as the empty value in the engine, which
coerces to 0 in arithmetic and `""` in text;
(c) the first write through `updateCellByPosition` creates the cell,
appending it with the given value, formula and data type and the current
id counter, and `getCell` then returns it;
(d) every subsequent write to the position mutates that same cell in
place: the store keeps its size, the cell keeps its id, and `getCell`
returns the merged cell carrying the newly written value, formula and
data type. -/
theorem c8_cell_lifecycle :
    (∀ (s : Store.Storage) (sid r c : Nat),
      (∀ cell ∈ s.cells, ¬(cell.sheetId = sid ∧ cell.row = r ∧ cell.column = c)) →
      Store.getCell s sid r c = none) ∧
    (∀ (cells : Contents) (p : Pos), lookupRaw cells p = none →
      cellResult cells p = .ok .empty) ∧
    (toNumber .empty = .ok 0 ∧ toText .empty = "") ∧
    (∀ (s : Store.Storage) (sid r c : Nat) (u : Store.CellUpdates) (v f d : String),
      Store.getCell s sid r c = none →
      u.value = some v → u.formula = some f → u.dataType = some d → d ≠ "" →
      ∃ s' cell, Store.updateCellByPosition s sid r c u = some (s', cell) ∧
        Store.getCell s' sid r c = some cell ∧
        cell.value = some v ∧ cell.formula = some f ∧ cell.dataType = d ∧
        cell.id = s.cellCounter ∧ s'.cells.length = s.cells.length + 1) ∧
    (∀ (s : Store.Storage) (sid r c : Nat) (u : Store.CellUpdates)
        (c0 : Store.Cell) (v f d : String),
      Store.getCell s sid r c = some c0 →
      Store.idsDistinct s.cells → Store.posFree u → u.id = none →
      u.value = some v → u.formula = some f → u.dataType = some d →
      ∃ s' cell, Store.updateCellByPosition s sid r c u = some (s', cell) ∧
        Store.getCell s' sid r c = some cell ∧
        cell.id = c0.id ∧ cell.value = some v ∧ cell.formula = some f ∧
        cell.dataType = d ∧ s'.cells.length = s.cells.length) := by
  refine ⟨?_, ?_, ⟨rfl, rfl⟩, ?_, ?_⟩
  · intro s sid r c h
    apply List.find?_eq_none.mpr
    intro cell hc
    have := h cell hc
    simp only [Bool.and_eq_true, beq_iff_eq]
    tauto
  · intro cells p hlook
    unfold cellResult evalFuel
    rw [evalPos_succ, hlook]
  · intro s sid r c u v f d hg hv hf hd hdne
    refine ⟨(Store.createCell s sid r c u).1, (Store.createCell s sid r c u).2,
      ?_, ?_, ?_, ?_, ?_, ?_, ?_⟩
    · unfold Store.updateCellByPosition
      rw [hg]
    · unfold Store.getCell Store.createCell
      simp only
      rw [List.find?_append]
      unfold Store.getCell at hg
      rw [hg]
      simp
    · simp [Store.createCell, hv]
    · simp [Store.createCell, hf]
    · simp [Store.createCell, hd, hdne]
    · simp [Store.createCell]
    · simp [Store.createCell]
  · intro s sid r c u c0 v f d hg hids hpos hidn hv hf hd
    obtain ⟨l', hupd, hfind, hlen⟩ :=
      Store.updateCellList_of_find? (Store.getCellPred_mergeCell hpos sid r c)
        hids hg
    refine ⟨{ s with cells := l' }, Store.mergeCell c0 u, ?_, hfind, ?_, ?_, ?_, ?_, hlen⟩
    · unfold Store.updateCellByPosition
      rw [hg]
      show Store.updateCell s c0.id u = _
      unfold Store.updateCell
      rw [hupd]
      rfl
    · simp [Store.mergeCell, hidn]
    · simp [Store.mergeCell, hv]
    · simp [Store.mergeCell, hf]
    · simp [Store.mergeCell, hd]

/-- Witness for C8: concrete first and second writes to position
(1, 1, 1) of a one-cell store, and the empty-position read. -/
theorem c8_cell_lifecycle_witness :
    (Store.getCell ⟨[], 1⟩ 1 1 1 = none) ∧
    cellResult [] (3, 4) = .ok .empty ∧
    (∃ s' cell, Store.updateCellByPosition ⟨[], 1⟩ 1 1 1
        { value := some "5", formula := some "=Z9", dataType := some "formula" } =
          some (s', cell) ∧
      Store.getCell s' 1 1 1 = some cell ∧
      cell.value = some "5" ∧ cell.formula = some "=Z9" ∧
      cell.dataType = "formula" ∧ cell.id = 1 ∧ s'.cells.length = 0 + 1) ∧
    (∃ s' cell, Store.updateCellByPosition
        ⟨[⟨7, 1, 1, 1, some "old", none, "text", none, none⟩], 8⟩ 1 1 1
        { value := some "9", formula := some "=A2", dataType := some "formula" } =
          some (s', cell) ∧
      Store.getCell s' 1 1 1 = some cell ∧
      cell.id = 7 ∧ cell.value = some "9" ∧ cell.formula = some "=A2" ∧
      cell.dataType = "formula" ∧ s'.cells.length = 1) := by
  refine ⟨c8_cell_lifecycle.1 ⟨[], 1⟩ 1 1 1 (by simp), ?_, ?_, ?_⟩
  · exact c8_cell_lifecycle.2.1 [] (3, 4) rfl
  · have h := c8_cell_lifecycle.2.2.2.1 ⟨[], 1⟩ 1 1 1
      { value := some "5", formula := some "=Z9", dataType := some "formula" }
      "5" "=Z9" "formula" rfl rfl rfl rfl (by decide)
    exact h
  · have h := c8_cell_lifecycle.2.2.2.2
      ⟨[⟨7, 1, 1, 1, some "old", none, "text", none, none⟩], 8⟩ 1 1 1
      { value := some "9", formula := some "=A2", dataType := some "formula" }
      ⟨7, 1, 1, 1, some "old", none, "text", none, none⟩ "9" "=A2" "formula"
      (by decide) (by decide) ⟨rfl, rfl, rfl⟩ rfl rfl rfl rfl
    exact h

namespace Engine

/-- Arithmetic formulas over numeric literals with `+ - * / ^` and
parentheses — the language quantified over by the spec's first testable
property. -/
inductive AExp where
  | lit (n : Nat)
  | add (a b : AExp)
  | sub (a b : AExp)
  | mul (a b : AExp)
  | div (a b : AExp)
  | pow (a b : AExp)
  deriving Repr, DecidableEq

/-- The arithmetically correct value of an arithmetic formula: `none`
exactly when a division by zero, a zero base with negative exponent, or a
non-integral exponent makes the rational result undefined. -/
def aeval : AExp → Option ℚ
  | .lit n => some (n : ℚ)
  | .add a b => do
    let x ← aeval a
    let y ← aeval b
    some (x + y)
  | .sub a b => do
    let x ← aeval a
    let y ← aeval b
    some (x - y)
  | .mul a b => do
    let x ← aeval a
    let y ← aeval b
    some (x * y)
  | .div a b => do
    let x ← aeval a
    let y ← aeval b
    if y = 0 then none else some (x / y)
  | .pow a b => do
    let x ← aeval a
    let y ← aeval b
    if y.den = 1 then
      if y.num < 0 && x = 0 then none else some (x ^ y.num)
    else none

/-- Precedence level of the top operator (smaller binds tighter). -/
def aprec : AExp → Nat
  | .lit _ => 0
  | .add _ _ => 5
  | .sub _ _ => 5
  | .mul _ _ => 4
  | .div _ _ => 4
  | .pow _ _ => 3

/-- Node count. -/
def sizeA : AExp → Nat
  | .lit _ => 1
  | .add a b => sizeA a + sizeA b + 1
  | .sub a b => sizeA a + sizeA b + 1
  | .mul a b => sizeA a + sizeA b + 1
  | .div a b => sizeA a + sizeA b + 1
  | .pow a b => sizeA a + sizeA b + 1

/-- Parenthesize the printed tokens when the operand does not bind
tightly enough for its position. -/
def wrapIf (k : Nat) (e : AExp) (ts : List Token) : List Token :=
  if aprec e ≤ k then ts else Token.lparen :: (ts ++ [Token.rparen])

/-- The printed token stream of an arithmetic formula, with minimal
parentheses as dictated by the grammar of §4.2 (left-associative `+ - * /`,
right-associative `^`). -/
def tokensRaw : AExp → List Token
  | .lit n => [.number (n : ℚ)]
  | .add a b => wrapIf 5 a (tokensRaw a) ++ [.op "+"] ++ wrapIf 4 b (tokensRaw b)
  | .sub a b => wrapIf 5 a (tokensRaw a) ++ [.op "-"] ++ wrapIf 4 b (tokensRaw b)
  | .mul a b => wrapIf 4 a (tokensRaw a) ++ [.op "*"] ++ wrapIf 3 b (tokensRaw b)
  | .div a b => wrapIf 4 a (tokensRaw a) ++ [.op "/"] ++ wrapIf 3 b (tokensRaw b)
  | .pow a b => wrapIf 2 a (tokensRaw a) ++ [.op "^"] ++ wrapIf 3 b (tokensRaw b)

/-- The printed tokens of an operand at level `k`. -/
def tokensAt (k : Nat) (e : AExp) : List Token :=
  wrapIf k e (tokensRaw e)

/-- The expression node an arithmetic formula denotes. -/
def toExpr : AExp → Expr
  | .lit n => .numLit (n : ℚ)
  | .add a b => .binOp "+" (toExpr a) (toExpr b)
  | .sub a b => .binOp "-" (toExpr a) (toExpr b)
  | .mul a b => .binOp "*" (toExpr a) (toExpr b)
  | .div a b => .binOp "/" (toExpr a) (toExpr b)
  | .pow a b => .binOp "^" (toExpr a) (toExpr b)

/-- `48 + d` as a character (`'0'`–`'9'` for digits). -/
def digitChar (d : Nat) : Char :=
  Char.ofNat (48 + d)

/-- Decimal digits of a number, most significant first (fuel-indexed so
that it evaluates by reduction; `n + 1` fuel always suffices). -/
def natCharsAux : Nat → Nat → List Char
  | 0, _ => []
  | fuel + 1, n =>
    if n < 10 then [digitChar n]
    else natCharsAux fuel (n / 10) ++ [digitChar (n % 10)]

def natChars (n : Nat) : List Char :=
  natCharsAux (n + 1) n

/-- Characters of one printed token of the arithmetic fragment. -/
def renderTok : Token → List Char
  | .number q => natChars q.num.toNat
  | .op s => s.data
  | .lparen => ['(']
  | .rparen => [')']
  | _ => []

def renderToks (ts : List Token) : List Char :=
  ts.flatMap renderTok

/-- The printed source text of an arithmetic formula (without the
leading `=`). -/
def printAExp (e : AExp) : List Char :=
  renderToks (tokensRaw e)

end Engine

namespace Engine

theorem digitChar_isDigit {d : Nat} (h : d < 10) : (digitChar d).isDigit = true := by
  interval_cases d <;> decide

theorem digitChar_toNat {d : Nat} (h : d < 10) : (digitChar d).toNat = 48 + d := by
  interval_cases d <;> decide

theorem natFromDigits_append (acc : Nat) (xs ys : List Char) :
    natFromDigits acc (xs ++ ys) = natFromDigits (natFromDigits acc xs) ys := by
  unfold natFromDigits
  rw [List.foldl_append]

theorem natCharsAux_spec : ∀ (fuel n : Nat), n < fuel →
    (∀ c ∈ natCharsAux fuel n, c.isDigit = true) ∧ natCharsAux fuel n ≠ [] ∧
    ∀ acc, natFromDigits acc (natCharsAux fuel n) =
      acc * 10 ^ (natCharsAux fuel n).length + n := by
  intro fuel
  induction fuel with
  | zero => intro n h; omega
  | succ f ih =>
    intro n h
    by_cases hn : n < 10
    · refine ⟨?_, ?_, ?_⟩
      · intro c hc
        simp only [natCharsAux, if_pos hn, List.mem_singleton] at hc
        subst hc
        exact digitChar_isDigit hn
      · simp [natCharsAux, hn]
      · intro acc
        simp only [natCharsAux, if_pos hn]
        show acc * 10 + ((digitChar n).toNat - 48) = acc * 10 ^ 1 + n
        rw [digitChar_toNat hn]
        omega
    · have hdiv : n / 10 < f := by
        have h1 : n / 10 < n := Nat.div_lt_self (by omega) (by omega)
        omega
      obtain ⟨ihd, ihne, ihv⟩ := ih (n / 10) hdiv
      have hmod : n % 10 < 10 := Nat.mod_lt _ (by omega)
      refine ⟨?_, ?_, ?_⟩
      · intro c hc
        simp only [natCharsAux, if_neg hn, List.mem_append, List.mem_singleton] at hc
        rcases hc with hc | hc
        · exact ihd c hc
        · subst hc; exact digitChar_isDigit hmod
      · simp [natCharsAux, hn]
      · intro acc
        simp only [natCharsAux, if_neg hn]
        rw [natFromDigits_append]
        show natFromDigits (natFromDigits acc (natCharsAux f (n / 10))) [digitChar (n % 10)] =
          acc * 10 ^ (natCharsAux f (n / 10) ++ [digitChar (n % 10)]).length + n
        have h1 : natFromDigits (natFromDigits acc (natCharsAux f (n / 10))) [digitChar (n % 10)] =
            (natFromDigits acc (natCharsAux f (n / 10))) * 10 + ((digitChar (n % 10)).toNat - 48) := rfl
        rw [h1, digitChar_toNat hmod, ihv acc]
        rw [List.length_append, List.length_singleton, pow_succ]
        have := Nat.div_add_mod n 10
        ring_nf
        omega

theorem natChars_digits (n : Nat) : ∀ c ∈ natChars n, c.isDigit = true :=
  (natCharsAux_spec (n + 1) n (by omega)).1

theorem natChars_ne_nil (n : Nat) : natChars n ≠ [] :=
  (natCharsAux_spec (n + 1) n (by omega)).2.1

theorem natChars_value (n : Nat) : natFromDigits 0 (natChars n) = n := by
  have := (natCharsAux_spec (n + 1) n (by omega)).2.2 0
  simpa using this

theorem takeWhile_all_append {p : Char → Bool} {xs ys : List Char}
    (hx : ∀ c ∈ xs, p c = true)
    (hy : ∀ c, ys.head? = some c → p c = false) :
    (xs ++ ys).takeWhile p = xs ∧ (xs ++ ys).dropWhile p = ys := by
  induction xs with
  | nil =>
    simp only [List.nil_append]
    cases ys with
    | nil => simp
    | cons c tl =>
      have := hy c rfl
      simp [List.takeWhile, List.dropWhile, this]
  | cons x xt ih =>
    have hpx : p x = true := hx x (by simp)
    obtain ⟨h1, h2⟩ := ih (fun c hc => hx c (by simp [hc]))
    constructor
    · simp only [List.cons_append, List.takeWhile_cons, hpx, if_true, h1]
    · simp only [List.cons_append, List.dropWhile_cons, hpx, if_true, h2]

end Engine

namespace Engine

/-- The characters that may follow a printed number token. -/
def safeAfterNumber (c : Char) : Prop :=
  c.isDigit = false ∧ c ≠ '.' ∧ c ≠ 'e' ∧ c ≠ 'E'

theorem lexExponent_safe {q : ℚ} {rest : List Char}
    (hd : ∀ c, rest.head? = some c → c ≠ 'e' ∧ c ≠ 'E') :
    lexExponent q rest = .ok (q, rest) := by
  cases rest with
  | nil => rfl
  | cons c tl =>
    obtain ⟨he, hE⟩ := hd c rfl
    unfold lexExponent
    split
    all_goals first
      | rfl
      | (rename_i rest2 heq
         injection heq with h1 h2
         first
           | exact absurd h1 he
           | exact absurd h1 hE)

theorem lexNumber_natChars (n : Nat) (rest : List Char)
    (hd : ∀ c, rest.head? = some c → safeAfterNumber c) :
    lexNumber (natChars n ++ rest) = .ok ((n : ℚ), rest) := by
  obtain ⟨htake, hdrop⟩ := @takeWhile_all_append Char.isDigit (natChars n) rest
    (natChars_digits n) (fun c hc => (hd c hc).1)
  unfold lexNumber
  simp only [htake, hdrop]
  have hval : (natFromDigits 0 (natChars n) : ℚ) = (n : ℚ) := by
    rw [natChars_value]
  cases rest with
  | nil =>
    simp only []
    rw [hval]
    rfl
  | cons c tl =>
    obtain ⟨-, hdot, he, hE⟩ := hd c rfl
    rw [hval]
    split
    · rename_i rest2 heq
      injection heq with h1 h2
      exact absurd h1 hdot
    · exact lexExponent_safe (fun c' hc' => by
        cases hc'
        exact ⟨he, hE⟩)
end Engine

namespace Engine

theorem tokenizeAux_plus (fuel : Nat) (cs : List Char) :
    tokenizeAux (fuel + 1) ('+' :: cs) =
      (tokenizeAux fuel cs).bind (fun ts => Except.ok (Token.op "+" :: ts)) := rfl

theorem tokenizeAux_minus (fuel : Nat) (cs : List Char) :
    tokenizeAux (fuel + 1) ('-' :: cs) =
      (tokenizeAux fuel cs).bind (fun ts => Except.ok (Token.op "-" :: ts)) := rfl

theorem tokenizeAux_star (fuel : Nat) (cs : List Char) :
    tokenizeAux (fuel + 1) ('*' :: cs) =
      (tokenizeAux fuel cs).bind (fun ts => Except.ok (Token.op "*" :: ts)) := rfl

theorem tokenizeAux_slash (fuel : Nat) (cs : List Char) :
    tokenizeAux (fuel + 1) ('/' :: cs) =
      (tokenizeAux fuel cs).bind (fun ts => Except.ok (Token.op "/" :: ts)) := rfl

theorem tokenizeAux_caret (fuel : Nat) (cs : List Char) :
    tokenizeAux (fuel + 1) ('^' :: cs) =
      (tokenizeAux fuel cs).bind (fun ts => Except.ok (Token.op "^" :: ts)) := rfl

theorem tokenizeAux_lparen (fuel : Nat) (cs : List Char) :
    tokenizeAux (fuel + 1) ('(' :: cs) =
      (tokenizeAux fuel cs).bind (fun ts => Except.ok (Token.lparen :: ts)) := rfl

theorem tokenizeAux_rparen (fuel : Nat) (cs : List Char) :
    tokenizeAux (fuel + 1) (')' :: cs) =
      (tokenizeAux fuel cs).bind (fun ts => Except.ok (Token.rparen :: ts)) := rfl

end Engine

namespace Engine

theorem digit_not_ws {c : Char} (h : c.isDigit = true) :
    (c = ' ' || c = '\t' || c = '\r' || c = '\n') = false := by
  have h1 : c ≠ ' ' := fun e => by rw [e] at h; exact absurd h (by decide)
  have h2 : c ≠ '\t' := fun e => by rw [e] at h; exact absurd h (by decide)
  have h3 : c ≠ '\r' := fun e => by rw [e] at h; exact absurd h (by decide)
  have h4 : c ≠ '\n' := fun e => by rw [e] at h; exact absurd h (by decide)
  simp [h1, h2, h3, h4]

theorem tokenizeAux_number (fuel n : Nat) (rest' : List Char)
    (hd : ∀ c, rest'.head? = some c → safeAfterNumber c) :
    tokenizeAux (fuel + 1) (natChars n ++ rest') =
      (tokenizeAux fuel rest').bind
        (fun ts => Except.ok (Token.number (n : ℚ) :: ts)) := by
  obtain ⟨d0, ds, hnc⟩ : ∃ d0 ds, natChars n = d0 :: ds := by
    cases hh : natChars n with
    | nil => exact absurd hh (natChars_ne_nil n)
    | cons d0 ds => exact ⟨d0, ds, rfl⟩
  have hd0 : d0.isDigit = true := natChars_digits n d0 (by rw [hnc]; simp)
  have hlex : lexNumber (d0 :: (ds ++ rest')) = .ok ((n : ℚ), rest') := by
    have := lexNumber_natChars n rest' hd
    rwa [hnc, List.cons_append] at this
  rw [hnc, List.cons_append]
  show tokenizeAux (fuel + 1) (d0 :: (ds ++ rest')) = _
  simp only [tokenizeAux, digit_not_ws hd0, Bool.false_eq_true, if_false, hd0, if_true,
    hlex]
  rfl

/-- The token immediately after a printed number may not be a number. -/
def headNotNumber : List Token → Prop
  | .number _ :: _ => False
  | _ => True

/-- The printed-token well-formedness the tokenizer round-trip needs:
every number is a natural literal, every operator is one of the five
arithmetic ones, only parentheses besides, and no two adjacent numbers. -/
def goodSeq : List Token → Prop
  | [] => True
  | .number q :: tl => (∃ n : Nat, q = (n : ℚ)) ∧ headNotNumber tl ∧ goodSeq tl
  | .op s :: tl => (s = "+" ∨ s = "-" ∨ s = "*" ∨ s = "/" ∨ s = "^") ∧ goodSeq tl
  | .lparen :: tl => goodSeq tl
  | .rparen :: tl => goodSeq tl
  | _ :: _ => False

theorem renderToks_head_safe {ts : List Token} (hg : goodSeq ts)
    (hh : headNotNumber ts) :
    ∀ c, (renderToks ts).head? = some c → safeAfterNumber c := by
  intro c hc
  match ts with
  | [] => simp [renderToks] at hc
  | .number q :: tl => exact absurd hh (by simp [headNotNumber])
  | .op s :: tl =>
    obtain ⟨hs, -⟩ := hg
    rcases hs with rfl | rfl | rfl | rfl | rfl <;>
      · simp only [renderToks, List.flatMap_cons, renderTok] at hc
        injection hc with h1
        subst h1
        exact ⟨by decide, by decide, by decide, by decide⟩
  | .lparen :: tl =>
    simp only [renderToks, List.flatMap_cons, renderTok] at hc
    injection hc with h1
    subst h1
    exact ⟨by decide, by decide, by decide, by decide⟩
  | .rparen :: tl =>
    simp only [renderToks, List.flatMap_cons, renderTok] at hc
    injection hc with h1
    subst h1
    exact ⟨by decide, by decide, by decide, by decide⟩
  | .strTok _ :: tl => exact absurd hg (by simp [goodSeq])
  | .cellRef _ _ :: tl => exact absurd hg (by simp [goodSeq])
  | .rangeRef _ _ _ _ :: tl => exact absurd hg (by simp [goodSeq])
  | .ident _ :: tl => exact absurd hg (by simp [goodSeq])
  | .comma :: tl => exact absurd hg (by simp [goodSeq])

theorem renderToks_length {ts : List Token} (hg : goodSeq ts) :
    ts.length ≤ (renderToks ts).length := by
  induction ts with
  | nil => simp [renderToks]
  | cons t tl ih =>
    match t, hg with
    | .number q, hg =>
      obtain ⟨⟨n, hq⟩, hh, htl⟩ := hg
      subst hq
      simp only [renderToks, List.flatMap_cons, List.length_append, List.length_cons]
      have h1 : 1 ≤ (renderTok (.number (n : ℚ))).length := by
        simp only [renderTok]
        cases hh : natChars ((n : ℚ)).num.toNat with
        | nil => exact absurd hh (natChars_ne_nil _)
        | cons a b => simp
      have := ih htl
      simp only [renderToks] at this
      omega
    | .op s, ⟨hs, htl⟩ =>
      have h1 : 1 ≤ (renderTok (.op s)).length := by
        rcases hs with rfl | rfl | rfl | rfl | rfl <;> decide
      have := ih htl
      simp only [renderToks, List.flatMap_cons, List.length_append, List.length_cons]
      simp only [renderToks] at this
      omega
    | .lparen, htl =>
      have := ih htl
      simp only [renderToks, List.flatMap_cons, List.length_append, List.length_cons,
        renderTok, List.length_singleton] at this ⊢
      omega
    | .rparen, htl =>
      have := ih htl
      simp only [renderToks, List.flatMap_cons, List.length_append, List.length_cons,
        renderTok, List.length_singleton] at this ⊢
      omega

theorem tokenize_render : ∀ (ts : List Token) (fuel : Nat), goodSeq ts →
    ts.length < fuel → tokenizeAux fuel (renderToks ts) = .ok ts := by
  intro ts
  induction ts with
  | nil =>
    intro fuel _ hf
    match fuel, hf with
    | f + 1, _ => rfl
  | cons t tl ih =>
    intro fuel hg hf
    match fuel, hf with
    | f + 1, hf =>
      have hlt : tl.length < f := by simp at hf; omega
      match t, hg with
      | .number q, hg =>
        obtain ⟨⟨n, hq⟩, hh, htl⟩ := hg
        subst hq
        have hnum : renderTok (.number (n : ℚ)) = natChars n := by
          simp [renderTok]
        simp only [renderToks, List.flatMap_cons, hnum]
        rw [show tl.flatMap renderTok = renderToks tl from rfl]
        rw [tokenizeAux_number f n (renderToks tl) (renderToks_head_safe htl hh)]
        rw [ih f htl hlt]
        rfl
      | .op s, ⟨hs, htl⟩ =>
        rcases hs with rfl | rfl | rfl | rfl | rfl <;>
        · simp only [renderToks, List.flatMap_cons, renderTok]
          rw [show tl.flatMap renderTok = renderToks tl from rfl]
          first
            | rw [show (↑"+".data ++ renderToks tl : List Char) =
                  '+' :: renderToks tl from rfl, tokenizeAux_plus, ih f htl hlt]; rfl
            | rw [show (↑"-".data ++ renderToks tl : List Char) =
                  '-' :: renderToks tl from rfl, tokenizeAux_minus, ih f htl hlt]; rfl
            | rw [show (↑"*".data ++ renderToks tl : List Char) =
                  '*' :: renderToks tl from rfl, tokenizeAux_star, ih f htl hlt]; rfl
            | rw [show (↑"/".data ++ renderToks tl : List Char) =
                  '/' :: renderToks tl from rfl, tokenizeAux_slash, ih f htl hlt]; rfl
            | rw [show (↑"^".data ++ renderToks tl : List Char) =
                  '^' :: renderToks tl from rfl, tokenizeAux_caret, ih f htl hlt]; rfl
      | .lparen, htl =>
        simp only [renderToks, List.flatMap_cons, renderTok]
        rw [show tl.flatMap renderTok = renderToks tl from rfl]
        rw [show ('(' :: [] : List Char) ++ renderToks tl = '(' :: renderToks tl from rfl]
        rw [tokenizeAux_lparen, ih f htl hlt]
        rfl
      | .rparen, htl =>
        simp only [renderToks, List.flatMap_cons, renderTok]
        rw [show tl.flatMap renderTok = renderToks tl from rfl]
        rw [show (')' :: [] : List Char) ++ renderToks tl = ')' :: renderToks tl from rfl]
        rw [tokenizeAux_rparen, ih f htl hlt]
        rfl

end Engine

namespace Engine

/-- The precedence level at which an operator token is consumed by the
recursive-descent parser (§4.2): smaller binds tighter. -/
def opLevel (s : String) : Nat :=
  if s = "^" then 3
  else if s = "*" ∨ s = "/" then 4
  else if s = "+" ∨ s = "-" then 5
  else if s = "&" then 6
  else 7

/-- A token suffix that a level-`k` parse is allowed to stop in front of:
if it starts with an operator, that operator belongs to a looser level. -/
def oksuffix (k : Nat) (rest : List Token) : Prop :=
  ∀ s tl, rest = Token.op s :: tl → k < opLevel s

/-- Induction rank of a level-`k` parse of `e`: a parenthesised operand
must still pass through the whole cascade, which the extra 8 pays for. -/
def rank (k : Nat) (e : AExp) : Nat :=
  if k < aprec e then k + 8 else k

/-- The parser entry point of each precedence level. -/
def parseAt : Nat → Nat → List Token → Except BaseErr (Expr × List Token)
  | 7, fuel, toks => parseCmp fuel toks
  | 6, fuel, toks => parseConcat fuel toks
  | 5, fuel, toks => parseAdd fuel toks
  | 4, fuel, toks => parseMul fuel toks
  | 3, fuel, toks => parsePow fuel toks
  | _, fuel, toks => parseUnary fuel toks

def isAddSub : AExp → Bool
  | .add _ _ => true
  | .sub _ _ => true
  | _ => false

def isMulDiv : AExp → Bool
  | .mul _ _ => true
  | .div _ _ => true
  | _ => false

def isPow : AExp → Bool
  | .pow _ _ => true
  | _ => false

/-- Leftmost operand and operator chain of a `+`/`-` spine. -/
def addSpine : AExp → AExp × List (String × AExp)
  | .add a b => ((addSpine a).1, (addSpine a).2 ++ [("+", b)])
  | .sub a b => ((addSpine a).1, (addSpine a).2 ++ [("-", b)])
  | .lit n => (.lit n, [])
  | .mul a b => (.mul a b, [])
  | .div a b => (.div a b, [])
  | .pow a b => (.pow a b, [])

/-- Leftmost operand and operator chain of a `*`/`/` spine. -/
def mulSpine : AExp → AExp × List (String × AExp)
  | .mul a b => ((mulSpine a).1, (mulSpine a).2 ++ [("*", b)])
  | .div a b => ((mulSpine a).1, (mulSpine a).2 ++ [("/", b)])
  | .lit n => (.lit n, [])
  | .add a b => (.add a b, [])
  | .sub a b => (.sub a b, [])
  | .pow a b => (.pow a b, [])

/-- Printed tokens of an additive operator chain (operands at level 4). -/
def opsToksA (ops : List (String × AExp)) : List Token :=
  ops.flatMap (fun p => Token.op p.1 :: tokensAt 4 p.2)

/-- Printed tokens of a multiplicative operator chain (operands at
level 3). -/
def opsToksM (ops : List (String × AExp)) : List Token :=
  ops.flatMap (fun p => Token.op p.1 :: tokensAt 3 p.2)

/-- Fuel cost of an operator chain. -/
def needSum : List (String × AExp) → Nat
  | [] => 0
  | p :: tl => sizeA p.2 + 1 + needSum tl

/-- Left fold rebuilding the expression of a spine. -/
def foldOps (acc : Expr) (ops : List (String × AExp)) : Expr :=
  ops.foldl (fun acc p => Expr.binOp p.1 acc (toExpr p.2)) acc

theorem sizeA_pos (e : AExp) : 1 ≤ sizeA e := by
  cases e <;> simp [sizeA]

theorem aprec_le (e : AExp) : aprec e ≤ 5 := by
  cases e <;> simp [aprec]

theorem aprec_le4_of_not_addsub {e : AExp} (h : isAddSub e = false) :
    aprec e ≤ 4 := by
  cases e <;> simp_all [isAddSub, aprec]

theorem rank_le (k : Nat) (e : AExp) : rank k e ≤ k + 8 := by
  unfold rank; split <;> omega

theorem rank_of_le {k : Nat} {e : AExp} (h : aprec e ≤ k) : rank k e = k := by
  unfold rank; rw [if_neg (by omega)]

theorem rank4_of_not_addsub {e : AExp} (h : isAddSub e = false) :
    rank 4 e = 4 :=
  rank_of_le (aprec_le4_of_not_addsub h)

theorem rank3_succ_of_not_muldiv {e : AExp} (h : isMulDiv e = false) :
    rank 3 e + 1 = rank 4 e := by
  cases e <;> first
    | rfl
    | exact absurd h (by simp [isMulDiv])

theorem rank2_succ_of_not_pow {e : AExp} (h : isPow e = false) :
    rank 2 e + 1 = rank 3 e := by
  cases e <;> first
    | rfl
    | exact absurd h (by simp [isPow])

theorem tokensAt_eq_raw {k : Nat} {e : AExp} (h : aprec e ≤ k) :
    tokensAt k e = tokensRaw e := by
  unfold tokensAt wrapIf; rw [if_pos h]

theorem tokensAt_eq_wrap {k : Nat} {e : AExp} (h : k < aprec e) :
    tokensAt k e = Token.lparen :: (tokensRaw e ++ [Token.rparen]) := by
  unfold tokensAt wrapIf; rw [if_neg (by omega)]

theorem tokensAt7_raw (e : AExp) : tokensAt 7 e = tokensRaw e :=
  tokensAt_eq_raw (by have := aprec_le e; omega)

theorem tokensAt6_raw (e : AExp) : tokensAt 6 e = tokensRaw e :=
  tokensAt_eq_raw (by have := aprec_le e; omega)

theorem tokensAt5_raw (e : AExp) : tokensAt 5 e = tokensRaw e :=
  tokensAt_eq_raw (aprec_le e)

theorem tokensAt_54 {e : AExp} (h : isAddSub e = false) :
    tokensAt 5 e = tokensAt 4 e := by
  cases e <;> first
    | rfl
    | exact absurd h (by simp [isAddSub])

theorem tokensAt_43 {e : AExp} (h : isMulDiv e = false) :
    tokensAt 4 e = tokensAt 3 e := by
  cases e <;> first
    | rfl
    | exact absurd h (by simp [isMulDiv])

theorem tokensAt_32 {e : AExp} (h : isPow e = false) :
    tokensAt 3 e = tokensAt 2 e := by
  cases e <;> first
    | rfl
    | exact absurd h (by simp [isPow])

theorem addSpine_leaf (e : AExp) : isAddSub (addSpine e).1 = false := by
  induction e with
  | add a b iha _ => simpa [addSpine] using iha
  | sub a b iha _ => simpa [addSpine] using iha
  | lit n => rfl
  | mul a b _ _ => rfl
  | div a b _ _ => rfl
  | pow a b _ _ => rfl

theorem mulSpine_leaf (e : AExp) : isMulDiv (mulSpine e).1 = false := by
  induction e with
  | mul a b iha _ => simpa [mulSpine] using iha
  | div a b iha _ => simpa [mulSpine] using iha
  | lit n => rfl
  | add a b _ _ => rfl
  | sub a b _ _ => rfl
  | pow a b _ _ => rfl

theorem addSpine_mem (e : AExp) :
    ∀ p ∈ (addSpine e).2, p.1 = "+" ∨ p.1 = "-" := by
  induction e with
  | add a b iha _ =>
    intro p hp
    simp only [addSpine, List.mem_append, List.mem_singleton] at hp
    rcases hp with hp | rfl
    · exact iha p hp
    · exact Or.inl rfl
  | sub a b iha _ =>
    intro p hp
    simp only [addSpine, List.mem_append, List.mem_singleton] at hp
    rcases hp with hp | rfl
    · exact iha p hp
    · exact Or.inr rfl
  | lit n => intro p hp; simp [addSpine] at hp
  | mul a b _ _ => intro p hp; simp [addSpine] at hp
  | div a b _ _ => intro p hp; simp [addSpine] at hp
  | pow a b _ _ => intro p hp; simp [addSpine] at hp

theorem mulSpine_mem (e : AExp) :
    ∀ p ∈ (mulSpine e).2, p.1 = "*" ∨ p.1 = "/" := by
  induction e with
  | mul a b iha _ =>
    intro p hp
    simp only [mulSpine, List.mem_append, List.mem_singleton] at hp
    rcases hp with hp | rfl
    · exact iha p hp
    · exact Or.inl rfl
  | div a b iha _ =>
    intro p hp
    simp only [mulSpine, List.mem_append, List.mem_singleton] at hp
    rcases hp with hp | rfl
    · exact iha p hp
    · exact Or.inr rfl
  | lit n => intro p hp; simp [mulSpine] at hp
  | add a b _ _ => intro p hp; simp [mulSpine] at hp
  | sub a b _ _ => intro p hp; simp [mulSpine] at hp
  | pow a b _ _ => intro p hp; simp [mulSpine] at hp

theorem needSum_append (xs ys : List (String × AExp)) :
    needSum (xs ++ ys) = needSum xs + needSum ys := by
  induction xs with
  | nil => simp [needSum]
  | cons p tl ih => simp [needSum, ih]; omega

theorem needSum_mem {ops : List (String × AExp)} {p : String × AExp}
    (h : p ∈ ops) : sizeA p.2 + 1 ≤ needSum ops := by
  induction ops with
  | nil => simp at h
  | cons q tl ih =>
    rcases List.mem_cons.mp h with rfl | h
    · simp only [needSum]; omega
    · have := ih h
      simp only [needSum]; omega

theorem addSpine_size (e : AExp) :
    sizeA (addSpine e).1 + needSum (addSpine e).2 = sizeA e := by
  induction e with
  | add a b iha _ => simp [addSpine, needSum_append, needSum, sizeA]; omega
  | sub a b iha _ => simp [addSpine, needSum_append, needSum, sizeA]; omega
  | lit n => simp [addSpine, needSum]
  | mul a b _ _ => simp [addSpine, needSum]
  | div a b _ _ => simp [addSpine, needSum]
  | pow a b _ _ => simp [addSpine, needSum]

theorem mulSpine_size (e : AExp) :
    sizeA (mulSpine e).1 + needSum (mulSpine e).2 = sizeA e := by
  induction e with
  | mul a b iha _ => simp [mulSpine, needSum_append, needSum, sizeA]; omega
  | div a b iha _ => simp [mulSpine, needSum_append, needSum, sizeA]; omega
  | lit n => simp [mulSpine, needSum]
  | add a b _ _ => simp [mulSpine, needSum]
  | sub a b _ _ => simp [mulSpine, needSum]
  | pow a b _ _ => simp [mulSpine, needSum]

theorem addSpine_eq_self {e : AExp} (h : isAddSub e = false) :
    addSpine e = (e, []) := by
  cases e <;> first
    | rfl
    | exact absurd h (by simp [isAddSub])

theorem mulSpine_eq_self {e : AExp} (h : isMulDiv e = false) :
    mulSpine e = (e, []) := by
  cases e <;> first
    | rfl
    | exact absurd h (by simp [isMulDiv])

theorem addSpine_needSum_pos {e : AExp} (h : isAddSub e = true) :
    2 <= needSum (addSpine e).2 := by
  cases e with
  | add a b =>
    have := sizeA_pos b
    simp [addSpine, needSum_append, needSum]
    omega
  | sub a b =>
    have := sizeA_pos b
    simp [addSpine, needSum_append, needSum]
    omega
  | lit n => exact absurd h (by simp [isAddSub])
  | mul a b => exact absurd h (by simp [isAddSub])
  | div a b => exact absurd h (by simp [isAddSub])
  | pow a b => exact absurd h (by simp [isAddSub])

theorem mulSpine_needSum_pos {e : AExp} (h : isMulDiv e = true) :
    2 <= needSum (mulSpine e).2 := by
  cases e with
  | mul a b =>
    have := sizeA_pos b
    simp [mulSpine, needSum_append, needSum]
    omega
  | div a b =>
    have := sizeA_pos b
    simp [mulSpine, needSum_append, needSum]
    omega
  | lit n => exact absurd h (by simp [isMulDiv])
  | add a b => exact absurd h (by simp [isMulDiv])
  | sub a b => exact absurd h (by simp [isMulDiv])
  | pow a b => exact absurd h (by simp [isMulDiv])

theorem addSpine_toks (e : AExp) :
    tokensAt 5 e = tokensAt 4 (addSpine e).1 ++ opsToksA (addSpine e).2 := by
  induction e with
  | add a b iha _ =>
    rw [tokensAt5_raw]
    show wrapIf 5 a (tokensRaw a) ++ [Token.op "+"] ++ wrapIf 4 b (tokensRaw b) = _
    rw [show wrapIf 5 a (tokensRaw a) = tokensAt 5 a from rfl, iha]
    simp [addSpine, opsToksA, List.flatMap_append, tokensAt, List.append_assoc]
  | sub a b iha _ =>
    rw [tokensAt5_raw]
    show wrapIf 5 a (tokensRaw a) ++ [Token.op "-"] ++ wrapIf 4 b (tokensRaw b) = _
    rw [show wrapIf 5 a (tokensRaw a) = tokensAt 5 a from rfl, iha]
    simp [addSpine, opsToksA, List.flatMap_append, tokensAt, List.append_assoc]
  | lit n => simp [@addSpine_eq_self (AExp.lit n) rfl, opsToksA, @tokensAt_54 (AExp.lit n) rfl]
  | mul a b _ _ => simp [addSpine, opsToksA, @tokensAt_54 (AExp.mul a b) rfl]
  | div a b _ _ => simp [addSpine, opsToksA, @tokensAt_54 (AExp.div a b) rfl]
  | pow a b _ _ => simp [addSpine, opsToksA, @tokensAt_54 (AExp.pow a b) rfl]

theorem mulSpine_toks (e : AExp) :
    tokensAt 4 e = tokensAt 3 (mulSpine e).1 ++ opsToksM (mulSpine e).2 := by
  induction e with
  | mul a b iha _ =>
    rw [tokensAt_eq_raw (by simp [aprec])]
    show wrapIf 4 a (tokensRaw a) ++ [Token.op "*"] ++ wrapIf 3 b (tokensRaw b) = _
    rw [show wrapIf 4 a (tokensRaw a) = tokensAt 4 a from rfl, iha]
    simp [mulSpine, opsToksM, List.flatMap_append, tokensAt, List.append_assoc]
  | div a b iha _ =>
    rw [tokensAt_eq_raw (by simp [aprec])]
    show wrapIf 4 a (tokensRaw a) ++ [Token.op "/"] ++ wrapIf 3 b (tokensRaw b) = _
    rw [show wrapIf 4 a (tokensRaw a) = tokensAt 4 a from rfl, iha]
    simp [mulSpine, opsToksM, List.flatMap_append, tokensAt, List.append_assoc]
  | lit n => simp [mulSpine, opsToksM, @tokensAt_43 (AExp.lit n) rfl]
  | add a b _ _ => simp [mulSpine, opsToksM, @tokensAt_43 (AExp.add a b) rfl]
  | sub a b _ _ => simp [mulSpine, opsToksM, @tokensAt_43 (AExp.sub a b) rfl]
  | pow a b _ _ => simp [mulSpine, opsToksM, @tokensAt_43 (AExp.pow a b) rfl]

theorem addSpine_fold (e : AExp) :
    toExpr e = foldOps (toExpr (addSpine e).1) (addSpine e).2 := by
  induction e with
  | add a b iha _ => simp [addSpine, foldOps, List.foldl_append, toExpr] at iha ⊢; rw [iha]
  | sub a b iha _ => simp [addSpine, foldOps, List.foldl_append, toExpr] at iha ⊢; rw [iha]
  | lit n => rfl
  | mul a b _ _ => rfl
  | div a b _ _ => rfl
  | pow a b _ _ => rfl

theorem mulSpine_fold (e : AExp) :
    toExpr e = foldOps (toExpr (mulSpine e).1) (mulSpine e).2 := by
  induction e with
  | mul a b iha _ => simp [mulSpine, foldOps, List.foldl_append, toExpr] at iha ⊢; rw [iha]
  | div a b iha _ => simp [mulSpine, foldOps, List.foldl_append, toExpr] at iha ⊢; rw [iha]
  | lit n => rfl
  | add a b _ _ => rfl
  | sub a b _ _ => rfl
  | pow a b _ _ => rfl

end Engine

namespace Engine

theorem opLevel_le (s : String) : opLevel s ≤ 7 := by
  unfold opLevel
  split
  · omega
  split
  · omega
  split
  · omega
  split <;> omega

theorem not_plus_of_gt5 {s : String} (h : 5 < opLevel s) :
    ¬(s = "+" ∨ s = "-") := by
  rintro (rfl | rfl) <;> exact absurd h (by decide)

theorem not_mul_of_gt4 {s : String} (h : 4 < opLevel s) :
    ¬(s = "*" ∨ s = "/") := by
  rintro (rfl | rfl) <;> exact absurd h (by decide)

theorem ne_caret_of_gt3 {s : String} (h : 3 < opLevel s) : s ≠ "^" := by
  rintro rfl; exact absurd h (by decide)

theorem ne_amp_of_gt6 {s : String} (h : 6 < opLevel s) : s ≠ "&" := by
  rintro rfl; exact absurd h (by decide)

theorem oksuffix_mono {j k : Nat} {rest : List Token} (hjk : j ≤ k)
    (h : oksuffix k rest) : oksuffix j rest := by
  intro s tl heq
  have := h s tl heq
  omega

theorem oksuffixA {ops : List (String × AExp)} {rest : List Token}
    (hmem : ∀ p ∈ ops, p.1 = "+" ∨ p.1 = "-") (hsuf : oksuffix 5 rest) :
    oksuffix 4 (opsToksA ops ++ rest) := by
  cases ops with
  | nil =>
    simp only [opsToksA, List.flatMap_nil, List.nil_append]
    exact oksuffix_mono (by omega) hsuf
  | cons p tl =>
    intro s tl' heq
    simp only [opsToksA, List.flatMap_cons, List.cons_append, List.append_assoc] at heq
    have h1 : Token.op p.1 = Token.op s := (List.cons.injEq _ _ _ _ ▸ heq).1
    have h2 : p.1 = s := by injection h1
    rcases hmem p (List.mem_cons_self p tl) with hp | hp <;> rw [← h2, hp] <;> decide

theorem oksuffixM {ops : List (String × AExp)} {rest : List Token}
    (hmem : ∀ p ∈ ops, p.1 = "*" ∨ p.1 = "/") (hsuf : oksuffix 4 rest) :
    oksuffix 3 (opsToksM ops ++ rest) := by
  cases ops with
  | nil =>
    simp only [opsToksM, List.flatMap_nil, List.nil_append]
    exact oksuffix_mono (by omega) hsuf
  | cons p tl =>
    intro s tl' heq
    simp only [opsToksM, List.flatMap_cons, List.cons_append, List.append_assoc] at heq
    have h1 : Token.op p.1 = Token.op s := (List.cons.injEq _ _ _ _ ▸ heq).1
    have h2 : p.1 = s := by injection h1
    rcases hmem p (List.mem_cons_self p tl) with hp | hp <;> rw [← h2, hp] <;> decide

theorem parseCmpLoop_stop {rest : List Token} (fuel : Nat) (acc : Expr)
    (h : oksuffix 7 rest) : parseCmpLoop fuel acc rest = .ok (acc, rest) := by
  cases rest with
  | nil => cases fuel <;> rfl
  | cons t tl =>
    cases t
    case op s =>
      have := h s tl rfl
      have := opLevel_le s
      omega
    all_goals cases fuel <;> rfl

theorem parseConcatLoop_stop {rest : List Token} (fuel : Nat) (acc : Expr)
    (h : oksuffix 6 rest) : parseConcatLoop fuel acc rest = .ok (acc, rest) := by
  cases rest with
  | nil => cases fuel <;> rfl
  | cons t tl =>
    cases t
    case op s =>
      have hne : s ≠ "&" := ne_amp_of_gt6 (h s tl rfl)
      cases fuel with
      | zero =>
        simp only [parseConcatLoop]
        split
        · rename_i heq
          injection heq with h1 h2
          exact absurd (by injection h1) hne
        · rfl
      | succ f =>
        simp only [parseConcatLoop]
        split
        · rename_i heq
          injection heq with h1 h2
          exact absurd (by injection h1) hne
        · rfl
    all_goals cases fuel <;> rfl

theorem parseAddLoop_stop {rest : List Token} (fuel : Nat) (acc : Expr)
    (h : oksuffix 5 rest) : parseAddLoop fuel acc rest = .ok (acc, rest) := by
  cases rest with
  | nil => cases fuel <;> rfl
  | cons t tl =>
    cases t
    case op s =>
      have hne := not_plus_of_gt5 (h s tl rfl)
      cases fuel with
      | zero =>
        simp only [parseAddLoop]
        rw [if_neg (by simpa using hne)]
      | succ f =>
        simp only [parseAddLoop]
        rw [if_neg (by simpa using hne)]
    all_goals cases fuel <;> rfl

theorem parseMulLoop_stop {rest : List Token} (fuel : Nat) (acc : Expr)
    (h : oksuffix 4 rest) : parseMulLoop fuel acc rest = .ok (acc, rest) := by
  cases rest with
  | nil => cases fuel <;> rfl
  | cons t tl =>
    cases t
    case op s =>
      have hne := not_mul_of_gt4 (h s tl rfl)
      cases fuel with
      | zero =>
        simp only [parseMulLoop]
        rw [if_neg (by simpa using hne)]
      | succ f =>
        simp only [parseMulLoop]
        rw [if_neg (by simpa using hne)]
    all_goals cases fuel <;> rfl

theorem opsToksA_cons (p : String × AExp) (tl : List (String × AExp)) :
    opsToksA (p :: tl) = Token.op p.1 :: (tokensAt 4 p.2 ++ opsToksA tl) := by
  simp [opsToksA]

theorem opsToksM_cons (p : String × AExp) (tl : List (String × AExp)) :
    opsToksM (p :: tl) = Token.op p.1 :: (tokensAt 3 p.2 ++ opsToksM tl) := by
  simp [opsToksM]

theorem parseAddLoop_ok
    (ops : List (String × AExp)) :
    ∀ (acc : Expr) (rest : List Token) (fuel : Nat),
      (∀ p ∈ ops, p.1 = "+" ∨ p.1 = "-") →
      (∀ p ∈ ops, ∀ (rest' : List Token) (fuel' : Nat), oksuffix 4 rest' →
        16 * sizeA p.2 + 12 ≤ fuel' →
        parseMul fuel' (tokensAt 4 p.2 ++ rest') = .ok (toExpr p.2, rest')) →
      oksuffix 5 rest → 16 * needSum ops + 1 ≤ fuel →
      parseAddLoop fuel acc (opsToksA ops ++ rest) = .ok (foldOps acc ops, rest) := by
  induction ops with
  | nil =>
    intro acc rest fuel _ _ hsuf hfuel
    simp only [opsToksA, List.flatMap_nil, List.nil_append, foldOps, List.foldl_nil]
    exact parseAddLoop_stop fuel acc hsuf
  | cons p ops' ih =>
    intro acc rest fuel hmem H hsuf hfuel
    have hsz := sizeA_pos p.2
    obtain ⟨f, rfl⟩ : ∃ f, fuel = f + 1 :=
      ⟨fuel - 1, by simp only [needSum] at hfuel; omega⟩
    rw [opsToksA_cons, List.cons_append, List.append_assoc]
    simp only [parseAddLoop]
    rw [if_pos (by simpa using hmem p (List.mem_cons_self p ops'))]
    have hsuf4 : oksuffix 4 (opsToksA ops' ++ rest) :=
      oksuffixA (fun q hq => hmem q (List.mem_cons_of_mem p hq)) hsuf
    have hmul := H p (List.mem_cons_self p ops') (opsToksA ops' ++ rest) f hsuf4
      (by simp only [needSum] at hfuel; omega)
    rw [hmul]
    show parseAddLoop f (Expr.binOp p.1 acc (toExpr p.2)) _ = _
    have := ih (Expr.binOp p.1 acc (toExpr p.2)) rest f
      (fun q hq => hmem q (List.mem_cons_of_mem p hq))
      (fun q hq => H q (List.mem_cons_of_mem p hq)) hsuf
      (by simp only [needSum] at hfuel; omega)
    rw [this]
    rfl

theorem parseMulLoop_ok
    (ops : List (String × AExp)) :
    ∀ (acc : Expr) (rest : List Token) (fuel : Nat),
      (∀ p ∈ ops, p.1 = "*" ∨ p.1 = "/") →
      (∀ p ∈ ops, ∀ (rest' : List Token) (fuel' : Nat), oksuffix 3 rest' →
        16 * sizeA p.2 + 12 ≤ fuel' →
        parsePow fuel' (tokensAt 3 p.2 ++ rest') = .ok (toExpr p.2, rest')) →
      oksuffix 4 rest → 16 * needSum ops + 1 ≤ fuel →
      parseMulLoop fuel acc (opsToksM ops ++ rest) = .ok (foldOps acc ops, rest) := by
  induction ops with
  | nil =>
    intro acc rest fuel _ _ hsuf hfuel
    simp only [opsToksM, List.flatMap_nil, List.nil_append, foldOps, List.foldl_nil]
    exact parseMulLoop_stop fuel acc hsuf
  | cons p ops' ih =>
    intro acc rest fuel hmem H hsuf hfuel
    have hsz := sizeA_pos p.2
    obtain ⟨f, rfl⟩ : ∃ f, fuel = f + 1 :=
      ⟨fuel - 1, by simp only [needSum] at hfuel; omega⟩
    rw [opsToksM_cons, List.cons_append, List.append_assoc]
    simp only [parseMulLoop]
    rw [if_pos (by simpa using hmem p (List.mem_cons_self p ops'))]
    have hsuf3 : oksuffix 3 (opsToksM ops' ++ rest) :=
      oksuffixM (fun q hq => hmem q (List.mem_cons_of_mem p hq)) hsuf
    have hpow := H p (List.mem_cons_self p ops') (opsToksM ops' ++ rest) f hsuf3
      (by simp only [needSum] at hfuel; omega)
    rw [hpow]
    show parseMulLoop f (Expr.binOp p.1 acc (toExpr p.2)) _ = _
    have := ih (Expr.binOp p.1 acc (toExpr p.2)) rest f
      (fun q hq => hmem q (List.mem_cons_of_mem p hq))
      (fun q hq => H q (List.mem_cons_of_mem p hq)) hsuf
      (by simp only [needSum] at hfuel; omega)
    rw [this]
    rfl

end Engine

namespace Engine

theorem parseCmp_succ (f : Nat) (toks : List Token) :
    parseCmp (f + 1) toks =
      (parseConcat f toks).bind (fun p => parseCmpLoop f p.1 p.2) := rfl

theorem parseConcat_succ (f : Nat) (toks : List Token) :
    parseConcat (f + 1) toks =
      (parseAdd f toks).bind (fun p => parseConcatLoop f p.1 p.2) := rfl

theorem parseAdd_succ (f : Nat) (toks : List Token) :
    parseAdd (f + 1) toks =
      (parseMul f toks).bind (fun p => parseAddLoop f p.1 p.2) := rfl

theorem parseMul_succ (f : Nat) (toks : List Token) :
    parseMul (f + 1) toks =
      (parsePow f toks).bind (fun p => parseMulLoop f p.1 p.2) := rfl

theorem parsePow_succ (f : Nat) (toks : List Token) :
    parsePow (f + 1) toks =
      (parseUnary f toks).bind (fun p =>
        match p.2 with
        | Token.op "^" :: tl =>
          (parsePow f tl).bind (fun q => Except.ok (Expr.binOp "^" p.1 q.1, q.2))
        | _ => Except.ok (p.1, p.2)) := rfl

end Engine

namespace Engine

theorem eq_lit_of_aprec_le2 {e : AExp} (h : aprec e ≤ 2) : ∃ n, e = .lit n := by
  cases e with
  | lit n => exact ⟨n, rfl⟩
  | add a b => simp [aprec] at h
  | sub a b => simp [aprec] at h
  | mul a b => simp [aprec] at h
  | div a b => simp [aprec] at h
  | pow a b => simp [aprec] at h

theorem eq_pow_of_isPow {e : AExp} (h : isPow e = true) :
    ∃ a b, e = .pow a b := by
  cases e with
  | pow a b => exact ⟨a, b, rfl⟩
  | lit n => simp [isPow] at h
  | add a b => simp [isPow] at h
  | sub a b => simp [isPow] at h
  | mul a b => simp [isPow] at h
  | div a b => simp [isPow] at h

/-- Correctness of the recursive-descent parser on printed arithmetic
formulas: at every precedence level, parsing the printed operand followed
by a stopping suffix yields exactly the denoted expression node and the
untouched suffix. -/
theorem parseAt_ok :
    ∀ (N k : Nat) (e : AExp) (rest : List Token) (fuel : Nat),
      16 * sizeA e + rank k e ≤ N → 2 ≤ k → k ≤ 7 → oksuffix k rest →
      16 * sizeA e + rank k e ≤ fuel →
      parseAt k fuel (tokensAt k e ++ rest) = .ok (toExpr e, rest) := by
  intro N
  induction N using Nat.strong_induction_on with
  | _ N ih =>
  intro k e rest fuel hN h2 h7 hsuf hfuel
  have hs := sizeA_pos e
  interval_cases k
  -- level 2: parseUnary / parsePrimary
  · by_cases hp : aprec e ≤ 2
    · obtain ⟨n, rfl⟩ := eq_lit_of_aprec_le2 hp
      obtain ⟨g, rfl⟩ : ∃ g, fuel = g + 2 := ⟨fuel - 2, by
        have : rank 2 (AExp.lit n) = 2 := rank_of_le hp
        simp only [this, sizeA] at hfuel; omega⟩
      rfl
    · have hw : tokensAt 2 e = Token.lparen :: (tokensRaw e ++ [Token.rparen]) :=
        tokensAt_eq_wrap (by omega)
      have hrank : rank 2 e = 10 := by unfold rank; rw [if_pos (by omega)]
      rw [hrank] at hN hfuel
      obtain ⟨g, rfl⟩ : ∃ g, fuel = g + 2 := ⟨fuel - 2, by omega⟩
      have hr7 : rank 7 e = 7 := rank_of_le (by have := aprec_le e; omega)
      have hcmp : parseCmp g (tokensRaw e ++ (Token.rparen :: rest)) =
          .ok (toExpr e, Token.rparen :: rest) := by
        have h := ih (16 * sizeA e + 7) (by omega) 7 e (Token.rparen :: rest) g
          (by omega) (by omega) (by omega)
          (fun s tl heq => absurd heq (by simp))
          (by rw [hr7]; omega)
        rwa [tokensAt7_raw] at h
      rw [hw]
      show (parseCmp g ((tokensRaw e ++ [Token.rparen]) ++ rest)).bind
        (fun p => match p.2 with
          | Token.rparen :: t' => Except.ok (p.1, t')
          | _ => Except.error BaseErr.syntaxErr) = Except.ok (toExpr e, rest)
      rw [show ((tokensRaw e ++ [Token.rparen]) ++ rest : List Token) =
        tokensRaw e ++ (Token.rparen :: rest) by simp [List.append_assoc]]
      rw [hcmp]
      rfl
  -- level 3: parsePow
  · by_cases hp : isPow e
    · obtain ⟨a, b, rfl⟩ := eq_pow_of_isPow hp
      have hsa := sizeA_pos a
      have hsb := sizeA_pos b
      have hr3 : rank 3 (AExp.pow a b) = 3 := rank_of_le (by simp [aprec])
      rw [hr3] at hN hfuel
      simp only [sizeA] at hN hfuel hs
      obtain ⟨g, rfl⟩ : ∃ g, fuel = g + 1 := ⟨fuel - 1, by omega⟩
      have ht : tokensAt 3 (AExp.pow a b) ++ rest =
          tokensAt 2 a ++ (Token.op "^" :: (tokensAt 3 b ++ rest)) := by
        rw [tokensAt_eq_raw (by simp [aprec])]
        show (wrapIf 2 a (tokensRaw a) ++ [Token.op "^"] ++
          wrapIf 3 b (tokensRaw b)) ++ rest = _
        show (tokensAt 2 a ++ [Token.op "^"] ++ tokensAt 3 b) ++ rest = _
        simp [List.append_assoc]
      have hu : parseUnary g (tokensAt 2 a ++ (Token.op "^" :: (tokensAt 3 b ++ rest))) =
          .ok (toExpr a, Token.op "^" :: (tokensAt 3 b ++ rest)) :=
        ih (16 * sizeA a + rank 2 a)
          (by have := rank_le 2 a; omega) 2 a _ g (by omega) (by omega) (by omega)
          (by
            intro s tl heq
            have h1 : Token.op "^" = Token.op s := (List.cons.injEq _ _ _ _ ▸ heq).1
            have h2 : s = "^" := by injection h1 with h3; exact h3.symm
            subst h2; decide)
          (by have := rank_le 2 a; omega)
      have hb : parsePow g (tokensAt 3 b ++ rest) = .ok (toExpr b, rest) :=
        ih (16 * sizeA b + rank 3 b)
          (by have := rank_le 3 b; omega) 3 b rest g (by omega) (by omega) (by omega)
          hsuf (by have := rank_le 3 b; omega)
      show parsePow (g + 1) (tokensAt 3 (AExp.pow a b) ++ rest) = _
      rw [parsePow_succ, ht, hu]
      show (parsePow g (tokensAt 3 b ++ rest)).bind
        (fun q => Except.ok (Expr.binOp "^" (toExpr a) q.1, q.2)) = _
      rw [hb]
      rfl
    · have hp' : isPow e = false := by simpa using hp
      have ht := tokensAt_32 hp'
      have hr := rank2_succ_of_not_pow hp'
      obtain ⟨g, rfl⟩ : ∃ g, fuel = g + 1 := ⟨fuel - 1, by
        have := rank_le 3 e; omega⟩
      have hu : parseUnary g (tokensAt 2 e ++ rest) = .ok (toExpr e, rest) :=
        ih (16 * sizeA e + rank 2 e) (by omega) 2 e rest g (by omega) (by omega)
          (by omega) (oksuffix_mono (by omega) hsuf) (by omega)
      show parsePow (g + 1) (tokensAt 3 e ++ rest) = _
      rw [parsePow_succ, ht, hu]
      show (match (rest : List Token) with
        | Token.op "^" :: tl =>
          (parsePow g tl).bind (fun q => Except.ok (Expr.binOp "^" (toExpr e) q.1, q.2))
        | _ => Except.ok (toExpr e, rest)) = Except.ok (toExpr e, rest)
      split
      · rename_i tl
        exact absurd (hsuf "^" tl rfl) (by decide)
      · rfl
  -- level 4: parseMul
  · by_cases hm : isMulDiv e
    · have htoks := mulSpine_toks e
      have hns := mulSpine_needSum_pos hm
      have hsize := mulSpine_size e
      have hlp := sizeA_pos (mulSpine e).1
      have ha4 : aprec e ≤ 4 := by
        cases e with
        | lit n => simp [aprec]
        | mul a b => simp [aprec]
        | div a b => simp [aprec]
        | pow a b => simp [aprec]
        | add a b => exact absurd hm (by simp [isMulDiv])
        | sub a b => exact absurd hm (by simp [isMulDiv])
      have hr4 : rank 4 e = 4 := rank_of_le ha4
      rw [hr4] at hN hfuel
      obtain ⟨g, rfl⟩ : ∃ g, fuel = g + 1 := ⟨fuel - 1, by omega⟩
      have hsufM : oksuffix 3 (opsToksM (mulSpine e).2 ++ rest) :=
        oksuffixM (mulSpine_mem e) hsuf
      have hpow : parsePow g
          (tokensAt 3 (mulSpine e).1 ++ (opsToksM (mulSpine e).2 ++ rest)) =
          .ok (toExpr (mulSpine e).1, opsToksM (mulSpine e).2 ++ rest) :=
        ih (16 * sizeA (mulSpine e).1 + rank 3 (mulSpine e).1)
          (by have := rank_le 3 (mulSpine e).1; omega)
          3 (mulSpine e).1 _ g (by omega) (by omega) (by omega) hsufM
          (by have := rank_le 3 (mulSpine e).1; omega)
      show parseMul (g + 1) (tokensAt 4 e ++ rest) = _
      rw [parseMul_succ, htoks,
        show ((tokensAt 3 (mulSpine e).1 ++ opsToksM (mulSpine e).2) ++ rest :
          List Token) =
          tokensAt 3 (mulSpine e).1 ++ (opsToksM (mulSpine e).2 ++ rest) by
          simp [List.append_assoc],
        hpow]
      show parseMulLoop g (toExpr (mulSpine e).1)
        (opsToksM (mulSpine e).2 ++ rest) = _
      rw [mulSpine_fold e]
      refine parseMulLoop_ok (mulSpine e).2 (toExpr (mulSpine e).1) rest g
        (mulSpine_mem e) ?_ hsuf (by omega)
      intro p hp rest' fuel' hsuf' hfuel'
      have hmem := needSum_mem hp
      have h := ih (16 * sizeA p.2 + 12) (by omega) 3 p.2 rest' fuel'
        (by have := rank_le 3 p.2; omega) (by omega) (by omega) hsuf'
        (by have := rank_le 3 p.2; omega)
      exact h
    · have hm' : isMulDiv e = false := by simpa using hm
      have ht43 := tokensAt_43 hm'
      have hr := rank3_succ_of_not_muldiv hm'
      obtain ⟨g, rfl⟩ : ∃ g, fuel = g + 1 := ⟨fuel - 1, by
        have := rank_le 4 e; omega⟩
      have hpow : parsePow g (tokensAt 3 e ++ rest) = .ok (toExpr e, rest) :=
        ih (16 * sizeA e + rank 3 e) (by omega) 3 e rest g (by omega) (by omega)
          (by omega) (oksuffix_mono (by omega) hsuf) (by omega)
      show parseMul (g + 1) (tokensAt 4 e ++ rest) = _
      rw [parseMul_succ, ht43, hpow]
      exact parseMulLoop_stop g _ hsuf
  -- level 5: parseAdd
  · have hr5 : rank 5 e = 5 := rank_of_le (aprec_le e)
    rw [hr5] at hN hfuel
    obtain ⟨g, rfl⟩ : ∃ g, fuel = g + 1 := ⟨fuel - 1, by omega⟩
    by_cases ha : isAddSub e
    · have htoks := addSpine_toks e
      have hns := addSpine_needSum_pos ha
      have hsize := addSpine_size e
      have hlp := sizeA_pos (addSpine e).1
      have hr4l : rank 4 (addSpine e).1 = 4 := rank4_of_not_addsub (addSpine_leaf e)
      have hsufA : oksuffix 4 (opsToksA (addSpine e).2 ++ rest) :=
        oksuffixA (addSpine_mem e) hsuf
      have hmul : parseMul g
          (tokensAt 4 (addSpine e).1 ++ (opsToksA (addSpine e).2 ++ rest)) =
          .ok (toExpr (addSpine e).1, opsToksA (addSpine e).2 ++ rest) :=
        ih (16 * sizeA (addSpine e).1 + 4) (by omega)
          4 (addSpine e).1 _ g (by rw [hr4l]) (by omega) (by omega) hsufA
          (by rw [hr4l]; omega)
      show parseAdd (g + 1) (tokensAt 5 e ++ rest) = _
      rw [parseAdd_succ, htoks,
        show ((tokensAt 4 (addSpine e).1 ++ opsToksA (addSpine e).2) ++ rest :
          List Token) =
          tokensAt 4 (addSpine e).1 ++ (opsToksA (addSpine e).2 ++ rest) by
          simp [List.append_assoc],
        hmul]
      show parseAddLoop g (toExpr (addSpine e).1)
        (opsToksA (addSpine e).2 ++ rest) = _
      rw [addSpine_fold e]
      refine parseAddLoop_ok (addSpine e).2 (toExpr (addSpine e).1) rest g
        (addSpine_mem e) ?_ hsuf (by omega)
      intro p hp rest' fuel' hsuf' hfuel'
      have hmem := needSum_mem hp
      have h := ih (16 * sizeA p.2 + 12) (by omega) 4 p.2 rest' fuel'
        (by have := rank_le 4 p.2; omega) (by omega) (by omega) hsuf'
        (by have := rank_le 4 p.2; omega)
      exact h
    · have ha' : isAddSub e = false := by simpa using ha
      have ht54 := tokensAt_54 ha'
      have hr4 : rank 4 e = 4 := rank4_of_not_addsub ha'
      have hmul : parseMul g (tokensAt 4 e ++ rest) = .ok (toExpr e, rest) :=
        ih (16 * sizeA e + 4) (by omega) 4 e rest g (by rw [hr4]) (by omega)
          (by omega) (oksuffix_mono (by omega) hsuf) (by rw [hr4]; omega)
      show parseAdd (g + 1) (tokensAt 5 e ++ rest) = _
      rw [parseAdd_succ, ht54, hmul]
      exact parseAddLoop_stop g _ hsuf
  -- level 6: parseConcat
  · have hr6 : rank 6 e = 6 := rank_of_le (by have := aprec_le e; omega)
    rw [hr6] at hN hfuel
    obtain ⟨g, rfl⟩ : ∃ g, fuel = g + 1 := ⟨fuel - 1, by omega⟩
    have hr5 : rank 5 e = 5 := rank_of_le (aprec_le e)
    have hadd : parseAdd g (tokensAt 5 e ++ rest) = .ok (toExpr e, rest) :=
      ih (16 * sizeA e + 5) (by omega) 5 e rest g (by rw [hr5]) (by omega)
        (by omega) (oksuffix_mono (by omega) hsuf) (by rw [hr5]; omega)
    show parseConcat (g + 1) (tokensAt 6 e ++ rest) = _
    rw [parseConcat_succ, tokensAt6_raw, ← tokensAt5_raw, hadd]
    exact parseConcatLoop_stop g _ hsuf
  -- level 7: parseCmp
  · have hr7 : rank 7 e = 7 := rank_of_le (by have := aprec_le e; omega)
    rw [hr7] at hN hfuel
    obtain ⟨g, rfl⟩ : ∃ g, fuel = g + 1 := ⟨fuel - 1, by omega⟩
    have hr6 : rank 6 e = 6 := rank_of_le (by have := aprec_le e; omega)
    have hcon : parseConcat g (tokensAt 6 e ++ rest) = .ok (toExpr e, rest) :=
      ih (16 * sizeA e + 6) (by omega) 6 e rest g (by rw [hr6]) (by omega)
        (by omega) (oksuffix_mono (by omega) hsuf) (by rw [hr6]; omega)
    show parseCmp (g + 1) (tokensAt 7 e ++ rest) = _
    rw [parseCmp_succ, tokensAt7_raw, ← tokensAt6_raw, hcon]
    exact parseCmpLoop_stop g _ hsuf

end Engine

namespace Engine

theorem goodSeq_append : ∀ {xs ys : List Token}, goodSeq xs → goodSeq ys →
    headNotNumber ys → goodSeq (xs ++ ys) := by
  intro xs
  induction xs with
  | nil => intro ys _ hy _; simpa using hy
  | cons t tl ih =>
    intro ys hx hy hh
    match t, hx with
    | Token.number q, ⟨hn, hhn, htl⟩ =>
      refine ⟨hn, ?_, ih htl hy hh⟩
      cases tl with
      | nil => simpa using hh
      | cons u tl2 => cases u <;> first | exact trivial | exact hhn
    | Token.op s, ⟨hs, htl⟩ => exact ⟨hs, ih htl hy hh⟩
    | Token.lparen, htl => exact ih htl hy hh
    | Token.rparen, htl => exact ih htl hy hh
    | Token.strTok s, hx => exact absurd hx (by simp [goodSeq])
    | Token.cellRef c r, hx => exact absurd hx (by simp [goodSeq])
    | Token.rangeRef c1 r1 c2 r2, hx => exact absurd hx (by simp [goodSeq])
    | Token.ident n, hx => exact absurd hx (by simp [goodSeq])
    | Token.comma, hx => exact absurd hx (by simp [goodSeq])

theorem tokensAt_good {e : AExp} (k : Nat) (h : goodSeq (tokensRaw e)) :
    goodSeq (tokensAt k e) := by
  unfold tokensAt wrapIf
  split
  · exact h
  · show goodSeq (tokensRaw e ++ [Token.rparen])
    exact goodSeq_append h trivial trivial

theorem tokensRaw_good (e : AExp) : goodSeq (tokensRaw e) := by
  induction e with
  | lit n => exact ⟨⟨n, rfl⟩, trivial, trivial⟩
  | add a b iha ihb =>
    have heq : tokensRaw (AExp.add a b) =
        tokensAt 5 a ++ (Token.op "+" :: tokensAt 4 b) := by
      show wrapIf 5 a (tokensRaw a) ++ [Token.op "+"] ++ wrapIf 4 b (tokensRaw b) = _
      simp [tokensAt, List.append_assoc]
    rw [heq]
    exact goodSeq_append (tokensAt_good 5 iha)
      ⟨by decide, tokensAt_good 4 ihb⟩ trivial
  | sub a b iha ihb =>
    have heq : tokensRaw (AExp.sub a b) =
        tokensAt 5 a ++ (Token.op "-" :: tokensAt 4 b) := by
      show wrapIf 5 a (tokensRaw a) ++ [Token.op "-"] ++ wrapIf 4 b (tokensRaw b) = _
      simp [tokensAt, List.append_assoc]
    rw [heq]
    exact goodSeq_append (tokensAt_good 5 iha)
      ⟨by decide, tokensAt_good 4 ihb⟩ trivial
  | mul a b iha ihb =>
    have heq : tokensRaw (AExp.mul a b) =
        tokensAt 4 a ++ (Token.op "*" :: tokensAt 3 b) := by
      show wrapIf 4 a (tokensRaw a) ++ [Token.op "*"] ++ wrapIf 3 b (tokensRaw b) = _
      simp [tokensAt, List.append_assoc]
    rw [heq]
    exact goodSeq_append (tokensAt_good 4 iha)
      ⟨by decide, tokensAt_good 3 ihb⟩ trivial
  | div a b iha ihb =>
    have heq : tokensRaw (AExp.div a b) =
        tokensAt 4 a ++ (Token.op "/" :: tokensAt 3 b) := by
      show wrapIf 4 a (tokensRaw a) ++ [Token.op "/"] ++ wrapIf 3 b (tokensRaw b) = _
      simp [tokensAt, List.append_assoc]
    rw [heq]
    exact goodSeq_append (tokensAt_good 4 iha)
      ⟨by decide, tokensAt_good 3 ihb⟩ trivial
  | pow a b iha ihb =>
    have heq : tokensRaw (AExp.pow a b) =
        tokensAt 2 a ++ (Token.op "^" :: tokensAt 3 b) := by
      show wrapIf 2 a (tokensRaw a) ++ [Token.op "^"] ++ wrapIf 3 b (tokensRaw b) = _
      simp [tokensAt, List.append_assoc]
    rw [heq]
    exact goodSeq_append (tokensAt_good 2 iha)
      ⟨by decide, tokensAt_good 3 ihb⟩ trivial

theorem wrapIf_len (k : Nat) (x : AExp) (ts : List Token) :
    ts.length ≤ (wrapIf k x ts).length := by
  unfold wrapIf
  split
  · exact le_refl _
  · simp only [List.length_cons, List.length_append, List.length_singleton]
    omega

theorem sizeA_le_len (e : AExp) : sizeA e ≤ (tokensRaw e).length := by
  induction e with
  | lit n => simp [sizeA, tokensRaw]
  | add a b iha ihb =>
    have h1 := wrapIf_len 5 a (tokensRaw a)
    have h2 := wrapIf_len 4 b (tokensRaw b)
    show sizeA (AExp.add a b) ≤
      (wrapIf 5 a (tokensRaw a) ++ [Token.op "+"] ++ wrapIf 4 b (tokensRaw b)).length
    simp only [sizeA, List.length_append, List.length_cons, List.length_nil]
    omega
  | sub a b iha ihb =>
    have h1 := wrapIf_len 5 a (tokensRaw a)
    have h2 := wrapIf_len 4 b (tokensRaw b)
    show sizeA (AExp.sub a b) ≤
      (wrapIf 5 a (tokensRaw a) ++ [Token.op "-"] ++ wrapIf 4 b (tokensRaw b)).length
    simp only [sizeA, List.length_append, List.length_cons, List.length_nil]
    omega
  | mul a b iha ihb =>
    have h1 := wrapIf_len 4 a (tokensRaw a)
    have h2 := wrapIf_len 3 b (tokensRaw b)
    show sizeA (AExp.mul a b) ≤
      (wrapIf 4 a (tokensRaw a) ++ [Token.op "*"] ++ wrapIf 3 b (tokensRaw b)).length
    simp only [sizeA, List.length_append, List.length_cons, List.length_nil]
    omega
  | div a b iha ihb =>
    have h1 := wrapIf_len 4 a (tokensRaw a)
    have h2 := wrapIf_len 3 b (tokensRaw b)
    show sizeA (AExp.div a b) ≤
      (wrapIf 4 a (tokensRaw a) ++ [Token.op "/"] ++ wrapIf 3 b (tokensRaw b)).length
    simp only [sizeA, List.length_append, List.length_cons, List.length_nil]
    omega
  | pow a b iha ihb =>
    have h1 := wrapIf_len 2 a (tokensRaw a)
    have h2 := wrapIf_len 3 b (tokensRaw b)
    show sizeA (AExp.pow a b) ≤
      (wrapIf 2 a (tokensRaw a) ++ [Token.op "^"] ++ wrapIf 3 b (tokensRaw b)).length
    simp only [sizeA, List.length_append, List.length_cons, List.length_nil]
    omega

theorem parseTokens_tokensRaw (e : AExp) :
    parseTokens (tokensRaw e) = .ok (toExpr e) := by
  have hr7 : rank 7 e = 7 := rank_of_le (by have := aprec_le e; omega)
  have hlen := sizeA_le_len e
  have h := parseAt_ok (16 * sizeA e + rank 7 e) 7 e []
    (32 * (tokensRaw e).length + 32) (le_refl _) (by omega) (by omega)
    (fun s tl hh => absurd hh (by simp)) (by rw [hr7]; omega)
  rw [tokensAt7_raw, List.append_nil] at h
  have h2 : parseCmp (32 * (tokensRaw e).length + 32) (tokensRaw e) =
      Except.ok (toExpr e, ([] : List Token)) := h
  show (parseCmp (32 * (tokensRaw e).length + 32) (tokensRaw e)).bind
    (fun p => match p.2 with
      | [] => Except.ok p.1
      | _ => Except.error BaseErr.syntaxErr) = Except.ok (toExpr e)
  rw [h2]
  rfl

theorem tokenize_print (e : AExp) : tokenize (printAExp e) = .ok (tokensRaw e) := by
  unfold tokenize printAExp
  exact tokenize_render (tokensRaw e) ((renderToks (tokensRaw e)).length + 1)
    (tokensRaw_good e)
    (by have := renderToks_length (tokensRaw_good e); omega)

theorem parseFormula_print (e : AExp) :
    parseFormula (String.mk ('=' :: printAExp e)) = .ok (toExpr e) := by
  have h1 : parseFormula (String.mk ('=' :: printAExp e)) =
      (tokenize (printAExp e)).bind (fun toks => parseTokens toks) := rfl
  rw [h1, tokenize_print e]
  show parseTokens (tokensRaw e) = _
  exact parseTokens_tokensRaw e

end Engine

namespace Engine

/-- The engine computes exactly the arithmetic value of a printed
arithmetic formula tree: literals, `+ - * /` and `^` over rationals,
independent of the cell reader (no references occur). -/
theorem evalExpr_toExpr (reader : Pos → Except EvalError Value) :
    ∀ (e : AExp) (q : ℚ), aeval e = some q →
      evalExpr reader (toExpr e) = .ok (.num q) := by
  intro e
  induction e with
  | lit n =>
    intro q h
    simp only [aeval, Option.some.injEq] at h
    subst h
    rfl
  | add a b iha ihb =>
    intro q h
    rw [show aeval (AExp.add a b) =
      (aeval a).bind (fun x => (aeval b).bind (fun y => some (x + y))) from rfl] at h
    cases ha : aeval a with
    | none => rw [ha] at h; simp at h
    | some x =>
      cases hb : aeval b with
      | none => rw [ha, hb] at h; simp at h
      | some y =>
        rw [ha, hb] at h
        have h3 : x + y = q := by
          have h2 : some (x + y) = some q := h
          injection h2
        rw [show evalExpr reader (toExpr (AExp.add a b)) =
          (evalExpr reader (toExpr a)).bind (fun lv =>
            (evalExpr reader (toExpr b)).bind (fun rv => evalBin "+" lv rv)) from rfl]
        rw [iha x ha, ihb y hb]
        show evalBin "+" (.num x) (.num y) = .ok (.num q)
        rw [← h3]
        rfl
  | sub a b iha ihb =>
    intro q h
    rw [show aeval (AExp.sub a b) =
      (aeval a).bind (fun x => (aeval b).bind (fun y => some (x - y))) from rfl] at h
    cases ha : aeval a with
    | none => rw [ha] at h; simp at h
    | some x =>
      cases hb : aeval b with
      | none => rw [ha, hb] at h; simp at h
      | some y =>
        rw [ha, hb] at h
        have h3 : x - y = q := by
          have h2 : some (x - y) = some q := h
          injection h2
        rw [show evalExpr reader (toExpr (AExp.sub a b)) =
          (evalExpr reader (toExpr a)).bind (fun lv =>
            (evalExpr reader (toExpr b)).bind (fun rv => evalBin "-" lv rv)) from rfl]
        rw [iha x ha, ihb y hb]
        show evalBin "-" (.num x) (.num y) = .ok (.num q)
        rw [← h3]
        rfl
  | mul a b iha ihb =>
    intro q h
    rw [show aeval (AExp.mul a b) =
      (aeval a).bind (fun x => (aeval b).bind (fun y => some (x * y))) from rfl] at h
    cases ha : aeval a with
    | none => rw [ha] at h; simp at h
    | some x =>
      cases hb : aeval b with
      | none => rw [ha, hb] at h; simp at h
      | some y =>
        rw [ha, hb] at h
        have h3 : x * y = q := by
          have h2 : some (x * y) = some q := h
          injection h2
        rw [show evalExpr reader (toExpr (AExp.mul a b)) =
          (evalExpr reader (toExpr a)).bind (fun lv =>
            (evalExpr reader (toExpr b)).bind (fun rv => evalBin "*" lv rv)) from rfl]
        rw [iha x ha, ihb y hb]
        show evalBin "*" (.num x) (.num y) = .ok (.num q)
        rw [← h3]
        rfl
  | div a b iha ihb =>
    intro q h
    rw [show aeval (AExp.div a b) =
      (aeval a).bind (fun x => (aeval b).bind (fun y =>
        if y = 0 then none else some (x / y))) from rfl] at h
    cases ha : aeval a with
    | none => rw [ha] at h; simp at h
    | some x =>
      cases hb : aeval b with
      | none => rw [ha, hb] at h; simp at h
      | some y =>
        rw [ha, hb] at h
        have h2 : (if y = 0 then none else some (x / y)) = some q := h
        by_cases hy : y = 0
        · rw [if_pos hy] at h2; simp at h2
        · rw [if_neg hy] at h2
          have h3 : x / y = q := by injection h2
          rw [show evalExpr reader (toExpr (AExp.div a b)) =
            (evalExpr reader (toExpr a)).bind (fun lv =>
              (evalExpr reader (toExpr b)).bind (fun rv => evalBin "/" lv rv)) from rfl]
          rw [iha x ha, ihb y hb]
          show (if y = 0 then Except.error (EvalError.base BaseErr.divisionByZero)
            else Except.ok (Value.num (x / y))) = Except.ok (Value.num q)
          rw [if_neg hy, h3]
  | pow a b iha ihb =>
    intro q h
    rw [show aeval (AExp.pow a b) =
      (aeval a).bind (fun x => (aeval b).bind (fun y =>
        if y.den = 1 then
          if y.num < 0 && x = 0 then none else some (x ^ y.num)
        else none)) from rfl] at h
    cases ha : aeval a with
    | none => rw [ha] at h; simp at h
    | some x =>
      cases hb : aeval b with
      | none => rw [ha, hb] at h; simp at h
      | some y =>
        rw [ha, hb] at h
        have h2 : (if y.den = 1 then
            if y.num < 0 && x = 0 then none else some (x ^ y.num)
          else none) = some q := h
        by_cases hd : y.den = 1
        · rw [if_pos hd] at h2
          by_cases hc : (y.num < 0 && decide (x = 0) : Bool) = true
          · rw [if_pos hc] at h2; simp at h2
          · rw [if_neg hc] at h2
            have h3 : x ^ y.num = q := by injection h2
            rw [show evalExpr reader (toExpr (AExp.pow a b)) =
              (evalExpr reader (toExpr a)).bind (fun lv =>
                (evalExpr reader (toExpr b)).bind (fun rv => evalBin "^" lv rv)) from rfl]
            rw [iha x ha, ihb y hb]
            show (if y.den = 1 then
              if y.num < 0 && x = 0 then Except.error (EvalError.base BaseErr.divisionByZero)
              else Except.ok (Value.num (x ^ y.num))
              else Except.error (EvalError.base BaseErr.typeMismatch)) = Except.ok (Value.num q)
            rw [if_pos hd, if_neg hc, h3]
        · rw [if_neg hd] at h2; simp at h2

end Engine

/-- C1: for every well-formed arithmetic formula built from numeric
literals and the operators `+ - * / ^` (with minimal parentheses as
dictated by the precedence rules of §4.2), `Engine.evaluateFormula`
returns the arithmetically correct numeric result — whenever the formula
has a well-defined rational value `q` (no division by zero, no
non-integral or negative-exponent-of-zero power), evaluation returns
exactly `Value.num q`. -/
theorem c1_arithmetic_formulas_correct (cells : Contents) (e : AExp) (q : ℚ)
    (h : aeval e = some q) :
    evaluateFormula cells (String.mk ('=' :: printAExp e)) = .ok (.num q) := by
  have hform : isFormula (String.mk ('=' :: printAExp e)) = true := rfl
  unfold evaluateFormula
  rw [if_pos hform, parseFormula_print e]
  exact evalExpr_toExpr _ e q h

theorem c1_arithmetic_formulas_correct_witness :
    aeval (AExp.add (.lit 2) (.mul (.lit 3) (.lit 4))) = some 14 ∧
    String.mk ('=' :: printAExp (AExp.add (.lit 2) (.mul (.lit 3) (.lit 4)))) =
      "=2+3*4" ∧
    evaluateFormula []
      (String.mk ('=' :: printAExp (AExp.add (.lit 2) (.mul (.lit 3) (.lit 4))))) =
      .ok (.num 14) :=
  ⟨by with_unfolding_all decide, by rfl,
   c1_arithmetic_formulas_correct [] (AExp.add (.lit 2) (.mul (.lit 3) (.lit 4))) 14
     (by with_unfolding_all decide)⟩
